import Mathlib

set_option maxRecDepth 8000

/-!
Shallow embedding of the gesist codec (src/lib.rs, src/mixer.rs, src/padder.rs).

Bytes are modelled as `Nat` values below 256; u8 arithmetic wraps explicitly
via `% 256`.  usize arithmetic is modelled on `Nat` with explicit wrapping
(`% 2 ^ 64`, release-mode semantics) at the spots where the source can
overflow or underflow; a Rust panic (out-of-bounds slice or index) is
modelled as `none` of an outer `Option`.
-/

/-- 64-bit wrap modulus for `usize` arithmetic (64-bit target). -/
def U64 : Nat := 2 ^ 64

/-- Wrapping `usize` subtraction, release-mode semantics. -/
def wsub (a b : Nat) : Nat := (a + U64 - b % U64) % U64

/-- Wrapping `u8` subtraction (`u8::wrapping_sub`). -/
def bsub (a b : Nat) : Nat := (a + 256 - b % 256) % 256

/-- Base-2 logarithm by repeated halving, with enough fuel for any `usize`
value (64 halvings); agrees with `Nat.log2` below `2 ^ 64`, which is the
whole domain of the source's `usize` input. -/
def ilog2_go : Nat → Nat → Nat
  | 0, _ => 0
  | fuel + 1, n => if 2 ≤ n then ilog2_go fuel (n / 2) + 1 else 0

/-- `usize::checked_ilog2` for nonzero input. -/
def ilog2 (n : Nat) : Nat := ilog2_go 64 n

/-- Embeds `padder::leb128_size`: `input.checked_ilog2()` is `none` for 0 and
the floor base-2 logarithm otherwise, so the size is 0 for 0 and
`ilog2 n / 7 + 1` otherwise. -/
def leb128_size (n : Nat) : Nat :=
  if n = 0 then 0 else ilog2 n / 7 + 1

/-- Embeds `Padder::padded_size`.  The source computes
`size_leb128 + input_size + 1` in `usize` (wraps), casts to `isize`,
negates (wrapping at `isize::MIN`), takes `rem_euclid 3` and adds.
All wrap points are modelled explicitly. -/
def padded_size (n : Nat) : Nat :=
  let L := leb128_size n
  let swc := (L + n + 1) % U64
  let swcI : Int := if swc < 2 ^ 63 then (swc : Int) else (swc : Int) - (U64 : Int)
  let negI : Int := if swcI = -(2 ^ 63 : Int) then swcI else -swcI
  let extra : Nat := (negI % 3).toNat
  (swc + extra) % U64

/-- Emission loop of the `leb128` crate's `write::unsigned`, with enough
fuel for any `u64` value (ten 7-bit groups): emit 7 bits per byte, low group
first, continuation bit 0x80 on all but the last byte.  A value below 128
(including 0) is a single byte. -/
def leb128_write_go : Nat → Nat → List Nat
  | 0, _ => []
  | fuel + 1, n =>
    if n < 128 then [n]
    else (n % 128 + 128) :: leb128_write_go fuel (n / 128)

/-- Embeds `leb128::write::unsigned` (the source writes `usize` values,
all below `128 ^ 10`). -/
def leb128_write (n : Nat) : List Nat := leb128_write_go 10 n

/-- Loop of the `leb128` crate's `read::unsigned`: accumulate 7 bits per byte
at increasing shifts; at shift 63 (the 10th byte) only 0x00/0x01 are accepted,
anything else is the crate's `Overflow` error.  `none` covers both the
end-of-input error and the overflow error (both are mapped to
`BadLengthField` by the caller).  Returns the value and the bytes consumed. -/
def leb128_read_go (l : List Nat) (shift acc consumed : Nat) : Option (Nat × Nat) :=
  match l with
  | [] => none
  | b :: rest =>
    if shift = 63 ∧ b ≠ 0 ∧ b ≠ 1 then none
    else
      let acc2 := acc ||| ((b % 128) <<< shift)
      if b < 128 then some (acc2, consumed + 1)
      else leb128_read_go rest (shift + 7) acc2 (consumed + 1)

/-- Embeds `leb128::read::unsigned` from the start of a buffer. -/
def leb128_read (l : List Nat) : Option (Nat × Nat) :=
  leb128_read_go l 0 0 0

/-- Modelled from the spec: one shift-and-conditionally-xor round of the
MSB-first CRC-8 computation with polynomial 0x1D (SAE-J1850), as implemented
by the external `crc` crate used in `src/padder.rs`. -/
def crc8_round (c : Nat) : Nat :=
  if 128 ≤ c then ((c * 2) % 256) ^^^ 0x1D else (c * 2) % 256

/-- Modelled from the spec: folding one message byte into the CRC-8 state
(xor into the register, then eight polynomial rounds). -/
def crc8_byte (c b : Nat) : Nat :=
  crc8_round^[8] (c ^^^ b)

/-- Modelled from the spec: CRC-8/SAE-J1850 over a byte sequence
(init 0xFF, xorout 0xFF, no reflection); this is `Padder::CRC.checksum`. -/
def crc8 (data : List Nat) : Nat :=
  (data.foldl crc8_byte 0xFF) ^^^ 0xFF

/-- Embeds `padder::PaddingValidationError`. -/
inductive PaddingValidationError where
  | NotAligned (length : Nat)
  | BadLengthField
  | UnexpectedPaddedLength (payload_size expected actual : Nat)
  | InvalidChecksum (offset : Nat)
  deriving DecidableEq, Repr

/-- Embeds the `Padder` struct: leb128 field width, payload size, and the
whole backing buffer. -/
structure Padder where
  leb128Size : Nat
  size : Nat
  content : List Nat
  deriving DecidableEq, Repr

/-- In-place write of `vals` into `l` starting at `pos`, the model of
slice assignment.  Faithful whenever `pos + vals.length ≤ l.length`
(all uses in the development are in that range). -/
def writeRange (l : List Nat) (pos : Nat) (vals : List Nat) : List Nat :=
  l.take pos ++ vals ++ l.drop (pos + vals.length)

/-- Embeds `Padder::payload`: the slice `content[leb128_size..leb128_size+size]`. -/
def Padder.payload (p : Padder) : List Nat :=
  (p.content.drop p.leb128Size).take p.size

/-- Embeds `Padder::recalculate_checksum`: CRC over the payload, then write
`crc.wrapping_add(i as u8)` at each checksum position.  The checksum count
`content.len() - size - leb128_size` never underflows on the structurally
well-formed padders this is applied to, so plain `Nat` subtraction is used. -/
def recalculate_checksum (p : Padder) : Padder :=
  let crc := crc8 p.payload
  let cnt := p.content.length - p.size - p.leb128Size
  let vals := (List.range cnt).map fun i => (crc + i % 256) % 256
  { p with content := writeRange p.content (p.leb128Size + p.size) vals }

/-- Embeds `Padder::new_zeroed`: allocate `padded_size` zeroes, write the
leb128 length at the front (the write's return value, not `leb128_size`,
becomes the stored field width — they differ for size 0), recalculate. -/
def new_zeroed (size : Nat) : Padder :=
  let w := leb128_write size
  let content := writeRange (List.replicate (padded_size size) 0) 0 w
  recalculate_checksum { leb128Size := w.length, size := size, content := content }

/-- Embeds `Padder::new`: `new_zeroed`, then copy the payload in through the
mutation guard, whose drop recalculates the checksum. -/
def Padder.new (input : List Nat) : Padder :=
  let p := new_zeroed input.length
  recalculate_checksum { p with content := writeRange p.content p.leb128Size input }

/-- Rust range slicing `&l[s..e]`: `none` models the panic when `s > e` or
`e > l.length`. -/
def sliceGet (l : List Nat) (s e : Nat) : Option (List Nat) :=
  if s ≤ e ∧ e ≤ l.length then some ((l.drop s).take (e - s)) else none

/-- The checksum comparison loop of `Padder::try_from_raw`: compare
`content[leb128_size + payload_size + i]` with `crc.wrapping_add(i as u8)`
for `i` in `0..checksum_size`, in increasing offset order.  Index arithmetic
wraps in `usize`; an out-of-range index is a panic (`none`).  Result
`some none` means all bytes matched; `some (some off)` is the first
mismatching absolute offset. -/
def checkLoop (content : List Nat) (pos crc : Nat) : Nat → Nat → Option (Option Nat)
  | _, 0 => some none
  | i, cnt + 1 =>
    match content[(pos + i) % U64]? with
    | none => none
    | some b =>
      if b ≠ (crc + i % 256) % 256 then some (some ((pos + i) % U64))
      else checkLoop content pos crc (i + 1) cnt

/-- Embeds `Padder::try_from_raw`: alignment check, leb128 length read,
padded-size comparison, then CRC recomputation over the payload slice and
the byte-for-byte checksum comparison.  `checksum_size` is computed with
wrapping `usize` subtraction exactly as `len - payload_size - leb128_size`
is in the source; the payload slice and the comparison loop can panic
(`none`) exactly where the source's slicing/indexing can. -/
def try_from_raw (content : List Nat) : Option (Except PaddingValidationError Padder) :=
  let len := content.length
  if len % 3 ≠ 0 then some (.error (.NotAligned len))
  else
    match leb128_read content with
    | none => some (.error .BadLengthField)
    | some (payload_size, lebSize) =>
      let expected := padded_size payload_size
      if expected ≠ len then
        some (.error (.UnexpectedPaddedLength payload_size expected len))
      else
        let cnt := wsub (wsub len payload_size) lebSize
        match sliceGet content lebSize ((lebSize + payload_size) % U64) with
        | none => none
        | some payloadSlice =>
          let crc := crc8 payloadSlice
          match checkLoop content ((lebSize + payload_size) % U64) crc 0 cnt with
          | none => none
          | some (some off) => some (.error (.InvalidChecksum off))
          | some none => some (.ok ⟨lebSize, payload_size, content⟩)

/-! ### The Mixer (src/mixer.rs)

Each `mix_rule!` pass is translated as a structurally recursive list
function that performs the same per-element update in the same traversal
order.  Passes reading an already-updated neighbour carry the updated
window through the recursion; passes reading a not-yet-updated neighbour
read directly from the input list. -/

/-- Body of the `h2t` pass (head-to-tail running prefix sum): `prev` is the
already-updated previous byte. -/
def h2tAux (prev : Nat) : List Nat → List Nat
  | [] => []
  | x :: xs => ((x + prev) % 256) :: h2tAux ((x + prev) % 256) xs

/-- Pass `h2t`: `buf[i] = buf[i].wrapping_add(buf[i-1])` for i in `1..len`,
ascending, reading the updated `buf[i-1]`. -/
def h2t : List Nat → List Nat
  | [] => []
  | x :: xs => x :: h2tAux x xs

/-- Body of the `h2tr` pass: the traversal is descending, so `buf[i-1]` is
still the input value. -/
def h2trAux (prev : Nat) : List Nat → List Nat
  | [] => []
  | x :: xs => bsub x prev :: h2trAux x xs

/-- Pass `h2tr`: `buf[i] = buf[i].wrapping_sub(buf[i-1])` for i in
`(1..len).rev()`, reading the not-yet-updated `buf[i-1]`. -/
def h2tr : List Nat → List Nat
  | [] => []
  | x :: xs => x :: h2trAux x xs

/-- Body of the `u2d` (stride 3, ascending) pass; `p1 p2 p3` are the updated
values three, two and one positions back. -/
def u2dAux (p1 p2 p3 : Nat) : List Nat → List Nat
  | [] => []
  | x :: xs => (x ^^^ p1) :: u2dAux p2 p3 (x ^^^ p1) xs

/-- Pass `u2d 3`: `buf[i] ^= buf[i-3]` for i in `3..len` ascending, guarded
by `len > 3`, reading the updated `buf[i-3]`. -/
def u2d (l : List Nat) : List Nat :=
  if l.length > 3 then
    match l with
    | a :: b :: c :: rest => a :: b :: c :: u2dAux a b c rest
    | l => l
  else l

/-- Body of the `u2dr` pass: descending traversal, so `buf[i-3]` is the
input value. -/
def u2drAux (p1 p2 p3 : Nat) : List Nat → List Nat
  | [] => []
  | x :: xs => (x ^^^ p1) :: u2drAux p2 p3 x xs

/-- Pass `u2dr 3`: `buf[i] ^= buf[i-3]` for i in `(3..len).rev()`, guarded
by `len > 3`, reading the not-yet-updated `buf[i-3]`. -/
def u2dr (l : List Nat) : List Nat :=
  if l.length > 3 then
    match l with
    | a :: b :: c :: rest => a :: b :: c :: u2drAux a b c rest
    | l => l
  else l

/-- Body of the `byte` pass adding the index: `buf[i] += i as u8`. -/
def addIndexAux (i : Nat) : List Nat → List Nat
  | [] => []
  | x :: xs => ((x + i % 256) % 256) :: addIndexAux (i + 1) xs

/-- Pass `byte` (add): `buf[i] = buf[i].wrapping_add(i as u8)` for every i. -/
def addIndex (l : List Nat) : List Nat := addIndexAux 0 l

/-- Body of the `byte` pass subtracting the index. -/
def subIndexAux (i : Nat) : List Nat → List Nat
  | [] => []
  | x :: xs => bsub x (i % 256) :: subIndexAux (i + 1) xs

/-- Pass `byte` (sub): `buf[i] = buf[i].wrapping_sub(i as u8)` for every i. -/
def subIndex (l : List Nat) : List Nat := subIndexAux 0 l

/-- Embeds `Mixer::block_be_rotl` on one 3-byte block.  All u8 shifts
truncate to 8 bits; the carry is saved before `content[0]` is overwritten,
and the other reads use the not-yet-overwritten original bytes. -/
def block_be_rotl (s a b c : Nat) : Nat × Nat × Nat :=
  let remain := 8 - s
  let carry := a >>> remain
  (((a <<< s) % 256) ||| (b >>> remain),
   ((b <<< s) % 256) ||| (c >>> remain),
   ((c <<< s) % 256) ||| carry)

/-- Embeds `Mixer::block_be_rotr` on one 3-byte block. -/
def block_be_rotr (s a b c : Nat) : Nat × Nat × Nat :=
  let remain := 8 - s
  let carry := c &&& ((1 <<< s) - 1)
  ((a >>> s) ||| ((carry <<< remain) % 256),
   (b >>> s) ||| ((a <<< remain) % 256),
   (c >>> s) ||| ((b <<< remain) % 256))

/-- The `block` pass applying `block_be_rotl` with shift
`(i / 3 * 2 + 1) & 0x7` to each 3-byte block (`bi` is the block index).
The sub-3 tail case is unreachable under the Mixer's alignment invariant
(the source would panic there). -/
def rotlPassAux (bi : Nat) : List Nat → List Nat
  | a :: b :: c :: rest =>
    let r := block_be_rotl ((bi * 2 + 1) % 8) a b c
    r.1 :: r.2.1 :: r.2.2 :: rotlPassAux (bi + 1) rest
  | l => l

/-- The left-rotation `block` pass over the whole buffer. -/
def rotlPass (l : List Nat) : List Nat := rotlPassAux 0 l

/-- The `block` pass applying `block_be_rotr` with the same shift schedule. -/
def rotrPassAux (bi : Nat) : List Nat → List Nat
  | a :: b :: c :: rest =>
    let r := block_be_rotr ((bi * 2 + 1) % 8) a b c
    r.1 :: r.2.1 :: r.2.2 :: rotrPassAux (bi + 1) rest
  | l => l

/-- The right-rotation `block` pass over the whole buffer. -/
def rotrPass (l : List Nat) : List Nat := rotrPassAux 0 l

/-- Body of the `d2u 6` pass (descending, stride 6): each element looks six
positions ahead into the already-processed suffix. -/
def d2uAux : List Nat → List Nat
  | [] => []
  | x :: xs =>
    let ys := d2uAux xs
    match ys[5]? with
    | none => x :: ys
    | some z => ((x + z) % 256) :: ys

/-- Pass `d2u 6`: `buf[i] = buf[i].wrapping_add(buf[i+6])` for i in
`(0..len-6).rev()`, guarded by `len > 6`, reading the updated `buf[i+6]`. -/
def d2u (l : List Nat) : List Nat :=
  if l.length > 6 then d2uAux l else l

/-- Body of the `d2ur 6` pass: ascending traversal, so `buf[i+6]` is the
input value. -/
def d2urAux : List Nat → List Nat
  | [] => []
  | x :: xs =>
    (match xs[5]? with
     | none => x
     | some z => bsub x z) :: d2urAux xs

/-- Pass `d2ur 6`: `buf[i] = buf[i].wrapping_sub(buf[i+6])` for i in
`0..len-6`, guarded by `len > 6`, reading the not-yet-updated `buf[i+6]`. -/
def d2ur (l : List Nat) : List Nat :=
  if l.length > 6 then d2urAux l else l

/-- Body of the `t2h` pass (tail-to-head running suffix xor): processed from
the tail, each element xors the already-updated successor. -/
def t2hGo : List Nat → List Nat
  | [] => []
  | x :: xs =>
    match t2hGo xs with
    | [] => [x]
    | z :: zs => (x ^^^ z) :: z :: zs

/-- Body of the `t2hr` pass: ascending traversal, so `buf[i+1]` is the input
value. -/
def t2hrGo : List Nat → List Nat
  | [] => []
  | [x] => [x]
  | x :: y :: xs => (x ^^^ y) :: t2hrGo (y :: xs)

/-- Bit reversal of a byte (`u8::reverse_bits`), written out on the eight
bits of a value below 256. -/
def rev8 (x : Nat) : Nat :=
  (x % 2) * 128 + (x / 2 % 2) * 64 + (x / 4 % 2) * 32 + (x / 8 % 2) * 16 +
  (x / 16 % 2) * 8 + (x / 32 % 2) * 4 + (x / 64 % 2) * 2 + (x / 128 % 2)

/-- Embeds `Mixer::middle_shift` applied blockwise: reverse the bits of the
middle byte and swap the outer bytes of each 3-byte block. -/
def middlePassAux : List Nat → List Nat
  | a :: b :: c :: rest => c :: rev8 b :: a :: middlePassAux rest
  | l => l

/-- The `middle_shift` block pass over the whole buffer. -/
def middlePass (l : List Nat) : List Nat := middlePassAux l

/-- The thirteen passes of `Mixer::mix` in source order (src/mixer.rs
lines 178-190). -/
def mixPasses (l : List Nat) : List Nat :=
  h2tr (u2dr (subIndex (rotrPass (d2ur (t2hrGo
    (middlePass (t2hGo (d2u (rotlPass (addIndex (u2d (h2t l))))))))))))

/-- Embeds `Mixer::mix`.  On the empty buffer the two unguarded tail passes
compute `content.len() - 1`, which underflows `usize` and panics (debug) or
indexes out of bounds (release); that panic is the `none` case.  All other
passes are total on any buffer. -/
def mix (l : List Nat) : Option (List Nat) :=
  if l = [] then none else some (mixPasses l)

/-- Embeds `do_decode` (src/lib.rs): `Mixer::new` rejects unaligned input
with `NotAligned` before mixing; then mix and `try_from_raw`. -/
def do_decode (place : List Nat) : Option (Except PaddingValidationError Padder) :=
  if place.length % 3 ≠ 0 then some (.error (.NotAligned place.length))
  else
    match mix place with
    | none => none
    | some m => try_from_raw m

/-- Embeds `decode`: `do_decode`, extracting the payload on success. -/
def decode (input : List Nat) : Option (Except PaddingValidationError (List Nat)) :=
  (do_decode input).map (fun r => r.map Padder.payload)

/-- Embeds `encode` via `do_encode`: the empty payload short-circuits to the
empty blob without building a frame; otherwise frame then mix.  The outer
`Option` is the (never-realised) panic case of `mix`. -/
def encode (input : List Nat) : Option (List Nat) :=
  if input = [] then some [] else mix (Padder.new input).content

/-! ### Base64 transport (external collaborator)

Modelled from the spec: a standard URL-safe base64 alphabet with `=`
padding, as provided by the external `base64` crate (`BASE64_URL_SAFE`). -/

/-- Modelled from the spec: the URL-safe base64 alphabet. -/
def b64char (i : Nat) : Char :=
  if i < 26 then Char.ofNat (65 + i)
  else if i < 52 then Char.ofNat (97 + (i - 26))
  else if i < 62 then Char.ofNat (48 + (i - 52))
  else if i = 62 then Char.ofNat 45
  else Char.ofNat 95

/-- Modelled from the spec: URL-safe base64 encoding with padding. -/
def base64_encode : List Nat → List Char
  | a :: b :: c :: rest =>
    b64char (a / 4) :: b64char ((a % 4) * 16 + b / 16) ::
    b64char ((b % 16) * 4 + c / 64) :: b64char (c % 64) :: base64_encode rest
  | [a, b] => [b64char (a / 4), b64char ((a % 4) * 16 + b / 16),
               b64char ((b % 16) * 4), Char.ofNat 61]
  | [a] => [b64char (a / 4), b64char ((a % 4) * 16), Char.ofNat 61, Char.ofNat 61]
  | [] => []

/-- Modelled from the spec: value of one base64 alphabet character. -/
def b64index (c : Char) : Option Nat :=
  let n := c.toNat
  if 65 ≤ n ∧ n ≤ 90 then some (n - 65)
  else if 97 ≤ n ∧ n ≤ 122 then some (n - 97 + 26)
  else if 48 ≤ n ∧ n ≤ 57 then some (n - 48 + 52)
  else if n = 45 then some 62
  else if n = 95 then some 63
  else none

/-- Modelled from the spec: strict URL-safe base64 decoding with mandatory
canonical padding. -/
def base64_decode : List Char → Option (List Nat)
  | [] => some []
  | c1 :: c2 :: c3 :: c4 :: rest =>
    match b64index c1, b64index c2 with
    | some i1, some i2 =>
      if c3 = Char.ofNat 61 then
        if c4 = Char.ofNat 61 ∧ rest = [] ∧ i2 % 16 = 0 then
          some [i1 * 4 + i2 / 16]
        else none
      else
        match b64index c3 with
        | some i3 =>
          if c4 = Char.ofNat 61 then
            if rest = [] ∧ i3 % 4 = 0 then
              some [i1 * 4 + i2 / 16, (i2 % 16) * 16 + i3 / 4]
            else none
          else
            match b64index c4 with
            | some i4 =>
              (base64_decode rest).map fun tl =>
                (i1 * 4 + i2 / 16) :: ((i2 % 16) * 16 + i3 / 4) :: ((i3 % 4) * 64 + i4) :: tl
            | none => none
        | none => none
    | _, _ => none
  | _ => none

/-- Embeds `encode_to_base64`. -/
def encode_to_base64 (input : List Nat) : Option String :=
  (encode input).map fun bs => String.mk (base64_encode bs)

/-- Embeds `decode_from_base64`: outer error is the textual decode error,
then the binary decode result; the outermost `Option` is the panic case. -/
def decode_from_base64 (input : String) : Option (Except Unit (Except PaddingValidationError (List Nat))) :=
  match base64_decode input.data with
  | none => some (.error ())
  | some bin => (decode bin).map .ok

instance {e a : Type} [DecidableEq e] [DecidableEq a] : DecidableEq (Except e a)
  | .error e1, .error e2 => decidable_of_iff (e1 = e2) (by simp)
  | .error _, .ok _ => .isFalse (fun h => Except.noConfusion h)
  | .ok _, .error _ => .isFalse (fun h => Except.noConfusion h)
  | .ok a1, .ok a2 => decidable_of_iff (a1 = a2) (by simp)

/-- Every checksum byte equals the payload CRC plus its index (mod 256):
the central invariant of the Framer. -/
def checksumOk (P : Padder) : Prop :=
  ∀ i, i < P.content.length - P.size - P.leb128Size →
    P.content[P.leb128Size + P.size + i]? =
      some ((crc8 P.payload + i % 256) % 256)

/-- Models one `PadderMutGuard` scope from `Padder::as_mut`: while the guard
is held the payload region is overwritten with arbitrary bytes `q` (any
mutation of the payload ends in some such `q`); dropping the guard runs
`recalculate_checksum`. -/
def guardScope (P : Padder) (q : List Nat) : Padder :=
  recalculate_checksum { P with content := writeRange P.content P.leb128Size q }

/-- Modelled from the spec: the claimed count of checksum bytes,
`C(n) = 1 + ((-(L(n)+n+1)) mod 3)` with mathematical (euclidean) modulus,
stated with `Int.emod`.  To be compared with the checksum width implicit in
`padded_size`. -/
def C_spec (n : Nat) : Nat :=
  1 + ((-((leb128_size n : Int) + (n : Int) + 1)) % 3).toNat

/-! ### Generic helpers -/

/-- All elements of a buffer are byte values. -/
def Bytes (l : List Nat) : Prop := ∀ x ∈ l, x < 256

instance (l : List Nat) : Decidable (Bytes l) := List.decidableBAll _ l

/-- Bitwise or of values occupying disjoint low/high bit ranges is addition. -/
theorem lor_eq_add (x y n : Nat) (hx : x % 2 ^ n = 0) (hy : y < 2 ^ n) :
    x ||| y = x + y := by
  obtain ⟨q, hq⟩ := Nat.dvd_of_mod_eq_zero hx
  subst hq
  exact (Nat.mul_add_lt_is_or hy q).symm

theorem bytes_cons {x : Nat} {xs : List Nat} (h : Bytes (x :: xs)) :
    x < 256 ∧ Bytes xs := by
  exact ⟨h x (List.mem_cons_self x xs), fun y hy => h y (List.mem_cons_of_mem x hy)⟩

theorem bytes_cons_intro {x : Nat} {xs : List Nat} (hx : x < 256) (hxs : Bytes xs) :
    Bytes (x :: xs) := by
  intro y hy
  rcases List.mem_cons.mp hy with h | h
  · omega
  · exact hxs y h

/-! ### Pass lemmas: lengths -/

theorem h2tAux_length (p : Nat) (l : List Nat) : (h2tAux p l).length = l.length := by
  induction l generalizing p with
  | nil => rfl
  | cons x xs ih => simp [h2tAux, ih]

theorem h2t_length (l : List Nat) : (h2t l).length = l.length := by
  cases l with
  | nil => rfl
  | cons x xs => simp [h2t, h2tAux_length]

theorem h2trAux_length (p : Nat) (l : List Nat) : (h2trAux p l).length = l.length := by
  induction l generalizing p with
  | nil => rfl
  | cons x xs ih => simp [h2trAux, ih]

theorem h2tr_length (l : List Nat) : (h2tr l).length = l.length := by
  cases l with
  | nil => rfl
  | cons x xs => simp [h2tr, h2trAux_length]

theorem u2dAux_length (p1 p2 p3 : Nat) (l : List Nat) :
    (u2dAux p1 p2 p3 l).length = l.length := by
  induction l generalizing p1 p2 p3 with
  | nil => rfl
  | cons x xs ih => simp [u2dAux, ih]

theorem u2d_length (l : List Nat) : (u2d l).length = l.length := by
  unfold u2d
  split
  · cases l with
    | nil => rfl
    | cons a t =>
      cases t with
      | nil => rfl
      | cons b t2 =>
        cases t2 with
        | nil => rfl
        | cons c rest => simp [u2dAux_length]
  · rfl

theorem u2drAux_length (p1 p2 p3 : Nat) (l : List Nat) :
    (u2drAux p1 p2 p3 l).length = l.length := by
  induction l generalizing p1 p2 p3 with
  | nil => rfl
  | cons x xs ih => simp [u2drAux, ih]

theorem u2dr_length (l : List Nat) : (u2dr l).length = l.length := by
  unfold u2dr
  split
  · cases l with
    | nil => rfl
    | cons a t =>
      cases t with
      | nil => rfl
      | cons b t2 =>
        cases t2 with
        | nil => rfl
        | cons c rest => simp [u2drAux_length]
  · rfl

theorem addIndexAux_length (i : Nat) (l : List Nat) :
    (addIndexAux i l).length = l.length := by
  induction l generalizing i with
  | nil => rfl
  | cons x xs ih => simp [addIndexAux, ih]

theorem subIndexAux_length (i : Nat) (l : List Nat) :
    (subIndexAux i l).length = l.length := by
  induction l generalizing i with
  | nil => rfl
  | cons x xs ih => simp [subIndexAux, ih]

theorem rotlPassAux_length : ∀ (bi : Nat) (l : List Nat),
    (rotlPassAux bi l).length = l.length
  | bi, a :: b :: c :: rest => by
    simp [rotlPassAux, rotlPassAux_length (bi + 1) rest]
  | _, [] => rfl
  | _, [_] => rfl
  | _, [_, _] => rfl

theorem rotrPassAux_length : ∀ (bi : Nat) (l : List Nat),
    (rotrPassAux bi l).length = l.length
  | bi, a :: b :: c :: rest => by
    simp [rotrPassAux, rotrPassAux_length (bi + 1) rest]
  | _, [] => rfl
  | _, [_] => rfl
  | _, [_, _] => rfl

theorem middlePassAux_length : ∀ (l : List Nat), (middlePassAux l).length = l.length
  | a :: b :: c :: rest => by
    simp [middlePassAux, middlePassAux_length rest]
  | [] => rfl
  | [_] => rfl
  | [_, _] => rfl

theorem d2uAux_length (l : List Nat) : (d2uAux l).length = l.length := by
  induction l with
  | nil => rfl
  | cons x xs ih =>
    cases h5 : (d2uAux xs)[5]? <;> simp [d2uAux, h5, ih]

theorem d2u_length (l : List Nat) : (d2u l).length = l.length := by
  unfold d2u
  split
  · exact d2uAux_length l
  · rfl

theorem d2urAux_length (l : List Nat) : (d2urAux l).length = l.length := by
  induction l with
  | nil => rfl
  | cons x xs ih =>
    unfold d2urAux
    simp [ih]

theorem d2ur_length (l : List Nat) : (d2ur l).length = l.length := by
  unfold d2ur
  split
  · exact d2urAux_length l
  · rfl

theorem t2hGo_length : ∀ (l : List Nat), (t2hGo l).length = l.length
  | [] => rfl
  | x :: xs => by
    have ih := t2hGo_length xs
    cases heq : t2hGo xs with
    | nil =>
      rw [heq] at ih
      simp [t2hGo, heq]
      simpa using ih.symm
    | cons z zs =>
      rw [heq] at ih
      simp [t2hGo, heq]
      simpa using ih

theorem t2hrGo_length : ∀ (l : List Nat), (t2hrGo l).length = l.length
  | [] => rfl
  | [_] => rfl
  | x :: y :: xs => by
    simp [t2hrGo, t2hrGo_length (y :: xs)]

theorem mixPasses_length (l : List Nat) : (mixPasses l).length = l.length := by
  unfold mixPasses rotrPass rotlPass middlePass addIndex subIndex
  rw [h2tr_length, u2dr_length, subIndexAux_length, rotrPassAux_length, d2ur_length,
    t2hrGo_length, middlePassAux_length, t2hGo_length, d2u_length, rotlPassAux_length,
    addIndexAux_length, u2d_length, h2t_length]

/-! ### Pass lemmas: byte bounds -/

theorem xor_lt_256 {x y : Nat} (hx : x < 256) (hy : y < 256) : x ^^^ y < 256 := by
  have h : (256 : Nat) = 2 ^ 8 := by norm_num
  rw [h] at hx hy ⊢
  exact Nat.xor_lt_two_pow hx hy

theorem xor_xor_self (x z : Nat) : x ^^^ z ^^^ z = x := by
  rw [Nat.xor_assoc, Nat.xor_self, Nat.xor_zero]

theorem bsub_lt (a b : Nat) : bsub a b < 256 := by
  unfold bsub
  omega

theorem h2tAux_bytes (p : Nat) (l : List Nat) : Bytes (h2tAux p l) := by
  induction l generalizing p with
  | nil => intro x hx; simp [h2tAux] at hx
  | cons x xs ih =>
    refine bytes_cons_intro (by omega) (ih _)

theorem h2t_bytes {l : List Nat} (h : Bytes l) : Bytes (h2t l) := by
  cases l with
  | nil => exact h
  | cons x xs =>
    exact bytes_cons_intro (bytes_cons h).1 (h2tAux_bytes x xs)

theorem h2trAux_bytes (p : Nat) (l : List Nat) : Bytes (h2trAux p l) := by
  induction l generalizing p with
  | nil => intro x hx; simp [h2trAux] at hx
  | cons x xs ih =>
    exact bytes_cons_intro (bsub_lt _ _) (ih _)

theorem h2tr_bytes {l : List Nat} (h : Bytes l) : Bytes (h2tr l) := by
  cases l with
  | nil => exact h
  | cons x xs =>
    exact bytes_cons_intro (bytes_cons h).1 (h2trAux_bytes x xs)

theorem u2dAux_bytes {p1 p2 p3 : Nat} {l : List Nat}
    (hp : p1 < 256 ∧ p2 < 256 ∧ p3 < 256) (h : Bytes l) : Bytes (u2dAux p1 p2 p3 l) := by
  induction l generalizing p1 p2 p3 with
  | nil => exact h
  | cons x xs ih =>
    obtain ⟨hx, hxs⟩ := bytes_cons h
    exact bytes_cons_intro (xor_lt_256 hx hp.1)
      (ih ⟨hp.2.1, hp.2.2, xor_lt_256 hx hp.1⟩ hxs)

theorem u2d_bytes {l : List Nat} (h : Bytes l) : Bytes (u2d l) := by
  unfold u2d
  by_cases hlen : l.length > 3
  · rw [if_pos hlen]
    rcases l with _ | ⟨a, _ | ⟨b, _ | ⟨c, rest⟩⟩⟩
    · exact h
    · exact h
    · exact h
    · obtain ⟨ha, h2⟩ := bytes_cons h
      obtain ⟨hb, h3⟩ := bytes_cons h2
      obtain ⟨hc, h4⟩ := bytes_cons h3
      exact bytes_cons_intro ha (bytes_cons_intro hb (bytes_cons_intro hc
        (u2dAux_bytes ⟨ha, hb, hc⟩ h4)))
  · rw [if_neg hlen]
    exact h

theorem u2drAux_bytes {p1 p2 p3 : Nat} {l : List Nat}
    (hp : p1 < 256) (hmid : p2 < 256 ∧ p3 < 256) (h : Bytes l) :
    Bytes (u2drAux p1 p2 p3 l) := by
  induction l generalizing p1 p2 p3 with
  | nil => exact h
  | cons x xs ih =>
    obtain ⟨hx, hxs⟩ := bytes_cons h
    exact bytes_cons_intro (xor_lt_256 hx hp) (ih hmid.1 ⟨hmid.2, hx⟩ hxs)

theorem u2dr_bytes {l : List Nat} (h : Bytes l) : Bytes (u2dr l) := by
  unfold u2dr
  by_cases hlen : l.length > 3
  · rw [if_pos hlen]
    rcases l with _ | ⟨a, _ | ⟨b, _ | ⟨c, rest⟩⟩⟩
    · exact h
    · exact h
    · exact h
    · obtain ⟨ha, h2⟩ := bytes_cons h
      obtain ⟨hb, h3⟩ := bytes_cons h2
      obtain ⟨hc, h4⟩ := bytes_cons h3
      exact bytes_cons_intro ha (bytes_cons_intro hb (bytes_cons_intro hc
        (u2drAux_bytes ha ⟨hb, hc⟩ h4)))
  · rw [if_neg hlen]
    exact h

theorem addIndexAux_bytes (i : Nat) (l : List Nat) : Bytes (addIndexAux i l) := by
  induction l generalizing i with
  | nil => intro x hx; simp [addIndexAux] at hx
  | cons x xs ih =>
    exact bytes_cons_intro (by omega) (ih _)

theorem subIndexAux_bytes (i : Nat) (l : List Nat) : Bytes (subIndexAux i l) := by
  induction l generalizing i with
  | nil => intro x hx; simp [subIndexAux] at hx
  | cons x xs ih =>
    exact bytes_cons_intro (bsub_lt _ _) (ih _)

theorem d2uAux_bytes {l : List Nat} (h : Bytes l) : Bytes (d2uAux l) := by
  induction l with
  | nil => exact h
  | cons x xs ih =>
    obtain ⟨hx, hxs⟩ := bytes_cons h
    cases h5 : (d2uAux xs)[5]? with
    | none =>
      simp only [d2uAux, h5]
      exact bytes_cons_intro hx (ih hxs)
    | some z =>
      simp only [d2uAux, h5]
      exact bytes_cons_intro (by omega) (ih hxs)

theorem d2u_bytes {l : List Nat} (h : Bytes l) : Bytes (d2u l) := by
  unfold d2u
  split
  · exact d2uAux_bytes h
  · exact h

theorem d2urAux_bytes {l : List Nat} (h : Bytes l) : Bytes (d2urAux l) := by
  induction l with
  | nil => exact h
  | cons x xs ih =>
    obtain ⟨hx, hxs⟩ := bytes_cons h
    cases h5 : xs[5]? with
    | none =>
      simp only [d2urAux, h5]
      exact bytes_cons_intro hx (ih hxs)
    | some z =>
      simp only [d2urAux, h5]
      exact bytes_cons_intro (bsub_lt _ _) (ih hxs)

theorem d2ur_bytes {l : List Nat} (h : Bytes l) : Bytes (d2ur l) := by
  unfold d2ur
  split
  · exact d2urAux_bytes h
  · exact h

theorem t2hGo_bytes : ∀ {l : List Nat}, Bytes l → Bytes (t2hGo l)
  | [], h => h
  | x :: xs, h => by
    obtain ⟨hx, hxs⟩ := bytes_cons h
    have ih := t2hGo_bytes hxs
    cases heq : t2hGo xs with
    | nil =>
      simp only [t2hGo, heq]
      exact bytes_cons_intro hx (by intro y hy; simp at hy)
    | cons z zs =>
      rw [heq] at ih
      simp only [t2hGo, heq]
      exact bytes_cons_intro (xor_lt_256 hx (bytes_cons ih).1) ih

theorem t2hrGo_bytes : ∀ {l : List Nat}, Bytes l → Bytes (t2hrGo l)
  | [], h => h
  | [_], h => h
  | x :: y :: xs, h => by
    obtain ⟨hx, hxs⟩ := bytes_cons h
    have hy := (bytes_cons hxs).1
    simp only [t2hrGo]
    exact bytes_cons_intro (xor_lt_256 hx hy) (t2hrGo_bytes hxs)

theorem rev8_lt (x : Nat) : rev8 x < 256 := by
  unfold rev8
  omega

theorem middlePassAux_bytes : ∀ {l : List Nat}, Bytes l → Bytes (middlePassAux l)
  | [], h => h
  | [_], h => h
  | [_, _], h => h
  | a :: b :: c :: rest, h => by
    obtain ⟨ha, h2⟩ := bytes_cons h
    obtain ⟨hb, h3⟩ := bytes_cons h2
    obtain ⟨hc, h4⟩ := bytes_cons h3
    simp only [middlePassAux]
    exact bytes_cons_intro hc (bytes_cons_intro (rev8_lt b)
      (bytes_cons_intro ha (middlePassAux_bytes h4)))

/-! ### Rotation block lemmas -/

theorem mul_pow_mod_256_mod (a e : Nat) (he : e ≤ 8) : (a * 2 ^ e) % 256 % 2 ^ e = 0 := by
  have hdvd : (2 : Nat) ^ e ∣ 256 := by
    have h8 : (256 : Nat) = 2 ^ 8 := by norm_num
    rw [h8]
    exact pow_dvd_pow 2 he
  rw [Nat.mod_mod_of_dvd _ hdvd, Nat.mul_mod_left]

theorem div_pow_lt (b e f : Nat) (hb : b < 256) (hef : e + f = 8) : b / 2 ^ e < 2 ^ f := by
  rw [Nat.div_lt_iff_lt_mul (Nat.pos_pow_of_pos e (by norm_num))]
  have h : (2 : Nat) ^ f * 2 ^ e = 256 := by
    rw [← pow_add]
    have : f + e = 8 := by omega
    rw [this]
    norm_num
  omega

theorem mul_pow_mod_256_le (a e : Nat) (he1 : 1 ≤ e) (he : e ≤ 8) :
    (a * 2 ^ e) % 256 ≤ 256 - 2 ^ e := by
  have h0 := mul_pow_mod_256_mod a e he
  have h1 : (a * 2 ^ e) % 256 < 256 := Nat.mod_lt _ (by norm_num)
  obtain ⟨k, hk⟩ := Nat.dvd_of_mod_eq_zero h0
  have hpow : (2 : Nat) ^ e ∣ 256 := by
    have h8 : (256 : Nat) = 2 ^ 8 := by norm_num
    rw [h8]
    exact pow_dvd_pow 2 he
  obtain ⟨m, hm⟩ := hpow
  rw [hk] at h1 ⊢
  rw [hm] at h1 ⊢
  have hpos : 0 < (2 : Nat) ^ e := Nat.pos_pow_of_pos e (by norm_num)
  have hkm : k < m := lt_of_mul_lt_mul_left h1 (Nat.zero_le _)
  obtain ⟨m2, rfl⟩ : ∃ m2, m = m2 + 1 := ⟨m - 1, by omega⟩
  have h2 : 2 ^ e * k ≤ 2 ^ e * m2 := Nat.mul_le_mul_left _ (by omega)
  rw [Nat.mul_succ]
  omega

/-- Arithmetic form of `block_be_rotl` for shifts in `1..=7` on byte inputs. -/
theorem block_be_rotl_arith {s : Nat} (hs1 : 1 ≤ s) (hs7 : s ≤ 7) (a b c : Nat)
    (ha : a < 256) (hb : b < 256) (hc : c < 256) :
    block_be_rotl s a b c =
      ((a * 2 ^ s) % 256 + b / 2 ^ (8 - s), (b * 2 ^ s) % 256 + c / 2 ^ (8 - s),
       (c * 2 ^ s) % 256 + a / 2 ^ (8 - s)) := by
  unfold block_be_rotl
  simp only [Nat.shiftLeft_eq, Nat.shiftRight_eq_div_pow]
  rw [lor_eq_add _ _ s (mul_pow_mod_256_mod a s (by omega)) (div_pow_lt b (8 - s) s hb (by omega)),
      lor_eq_add _ _ s (mul_pow_mod_256_mod b s (by omega)) (div_pow_lt c (8 - s) s hc (by omega)),
      lor_eq_add _ _ s (mul_pow_mod_256_mod c s (by omega)) (div_pow_lt a (8 - s) s ha (by omega))]

/-- Arithmetic form of `block_be_rotr` for shifts in `1..=7` on byte inputs. -/
theorem block_be_rotr_arith {s : Nat} (hs1 : 1 ≤ s) (hs7 : s ≤ 7) (a b c : Nat)
    (ha : a < 256) (hb : b < 256) (hc : c < 256) :
    block_be_rotr s a b c =
      (((c % 2 ^ s) * 2 ^ (8 - s)) % 256 + a / 2 ^ s, ((a * 2 ^ (8 - s)) % 256) + b / 2 ^ s,
       ((b * 2 ^ (8 - s)) % 256) + c / 2 ^ s) := by
  unfold block_be_rotr
  simp only [Nat.shiftLeft_eq, Nat.shiftRight_eq_div_pow, Nat.one_mul,
    Nat.and_pow_two_sub_one_eq_mod]
  rw [Nat.lor_comm (a / 2 ^ s), Nat.lor_comm (b / 2 ^ s), Nat.lor_comm (c / 2 ^ s)]
  rw [lor_eq_add _ _ (8 - s) (mul_pow_mod_256_mod (c % 2 ^ s) (8 - s) (by omega))
        (div_pow_lt a s (8 - s) ha (by omega)),
      lor_eq_add _ _ (8 - s) (mul_pow_mod_256_mod a (8 - s) (by omega))
        (div_pow_lt b s (8 - s) hb (by omega)),
      lor_eq_add _ _ (8 - s) (mul_pow_mod_256_mod b (8 - s) (by omega))
        (div_pow_lt c s (8 - s) hc (by omega))]

/-- Components produced by `block_be_rotl` are bytes. -/
theorem rotl_comp_lt {x y e : Nat} (hy : y < 256) (he1 : 1 ≤ e) (he7 : e ≤ 7) :
    (x * 2 ^ e) % 256 + y / 2 ^ (8 - e) < 256 := by
  have h1 := mul_pow_mod_256_le x e he1 (by omega)
  have h2 := div_pow_lt y (8 - e) e hy (by omega)
  have h3 : (2 : Nat) ^ e ≤ 256 := by
    calc (2 : Nat) ^ e ≤ 2 ^ 8 := Nat.pow_le_pow_right (by norm_num) (by omega)
      _ = 256 := by norm_num
  omega

/-- Components produced by `block_be_rotr` are bytes. -/
theorem rotr_comp_lt {x y e : Nat} (hy : y < 256) (he1 : 1 ≤ e) (he7 : e ≤ 7) :
    (x * 2 ^ (8 - e)) % 256 + y / 2 ^ e < 256 := by
  have h1 := mul_pow_mod_256_le x (8 - e) (by omega) (by omega)
  have h2 := div_pow_lt y e (8 - e) hy (by omega)
  have h3 : (2 : Nat) ^ (8 - e) ≤ 256 := by
    calc (2 : Nat) ^ (8 - e) ≤ 2 ^ 8 := Nat.pow_le_pow_right (by norm_num) (by omega)
      _ = 256 := by norm_num
  omega

/-- Rotating a 3-byte block left then right by the same odd shift restores it. -/
theorem block_rotr_rotl {s : Nat} (hs : s = 1 ∨ s = 3 ∨ s = 5 ∨ s = 7) (a b c : Nat)
    (ha : a < 256) (hb : b < 256) (hc : c < 256) :
    block_be_rotr s (block_be_rotl s a b c).1 (block_be_rotl s a b c).2.1
      (block_be_rotl s a b c).2.2 = (a, b, c) := by
  have hs1 : 1 ≤ s := by omega
  have hs7 : s ≤ 7 := by omega
  rw [block_be_rotl_arith hs1 hs7 a b c ha hb hc]
  rw [block_be_rotr_arith hs1 hs7 _ _ _
    (rotl_comp_lt hb hs1 hs7) (rotl_comp_lt hc hs1 hs7) (rotl_comp_lt ha hs1 hs7)]
  rcases hs with h | h | h | h <;> subst h <;> norm_num <;>
    refine ⟨by omega, by omega, by omega⟩

/-- Rotating a 3-byte block right then left by the same odd shift restores it. -/
theorem block_rotl_rotr {s : Nat} (hs : s = 1 ∨ s = 3 ∨ s = 5 ∨ s = 7) (a b c : Nat)
    (ha : a < 256) (hb : b < 256) (hc : c < 256) :
    block_be_rotl s (block_be_rotr s a b c).1 (block_be_rotr s a b c).2.1
      (block_be_rotr s a b c).2.2 = (a, b, c) := by
  have hs1 : 1 ≤ s := by omega
  have hs7 : s ≤ 7 := by omega
  rw [block_be_rotr_arith hs1 hs7 a b c ha hb hc]
  rw [block_be_rotl_arith hs1 hs7 _ _ _
    (rotr_comp_lt ha hs1 hs7) (rotr_comp_lt hb hs1 hs7) (rotr_comp_lt hc hs1 hs7)]
  rcases hs with h | h | h | h <;> subst h <;> norm_num <;>
    refine ⟨by omega, by omega, by omega⟩

/-! ### Rotation and middle pass bounds -/

theorem rotlPassAux_bytes : ∀ (bi : Nat) {l : List Nat}, Bytes l → Bytes (rotlPassAux bi l)
  | _, [], h => h
  | _, [_], h => h
  | _, [_, _], h => h
  | bi, a :: b :: c :: rest, h => by
    obtain ⟨ha, h2⟩ := bytes_cons h
    obtain ⟨hb, h3⟩ := bytes_cons h2
    obtain ⟨hc, h4⟩ := bytes_cons h3
    have hs1 : 1 ≤ (bi * 2 + 1) % 8 := by omega
    have hs7 : (bi * 2 + 1) % 8 ≤ 7 := by omega
    simp only [rotlPassAux, block_be_rotl_arith hs1 hs7 a b c ha hb hc]
    exact bytes_cons_intro (rotl_comp_lt hb hs1 hs7)
      (bytes_cons_intro (rotl_comp_lt hc hs1 hs7)
        (bytes_cons_intro (rotl_comp_lt ha hs1 hs7) (rotlPassAux_bytes (bi + 1) h4)))

theorem rotrPassAux_bytes : ∀ (bi : Nat) {l : List Nat}, Bytes l → Bytes (rotrPassAux bi l)
  | _, [], h => h
  | _, [_], h => h
  | _, [_, _], h => h
  | bi, a :: b :: c :: rest, h => by
    obtain ⟨ha, h2⟩ := bytes_cons h
    obtain ⟨hb, h3⟩ := bytes_cons h2
    obtain ⟨hc, h4⟩ := bytes_cons h3
    have hs1 : 1 ≤ (bi * 2 + 1) % 8 := by omega
    have hs7 : (bi * 2 + 1) % 8 ≤ 7 := by omega
    simp only [rotrPassAux, block_be_rotr_arith hs1 hs7 a b c ha hb hc]
    exact bytes_cons_intro (rotr_comp_lt ha hs1 hs7)
      (bytes_cons_intro (rotr_comp_lt hb hs1 hs7)
        (bytes_cons_intro (rotr_comp_lt hc hs1 hs7) (rotrPassAux_bytes (bi + 1) h4)))

/-! ### Pass inverses -/

theorem h2trAux_h2tAux (l : List Nat) : ∀ (p : Nat), Bytes l →
    h2trAux p (h2tAux p l) = l := by
  induction l with
  | nil => intro p _; rfl
  | cons x xs ih =>
    intro p h
    obtain ⟨hx, hxs⟩ := bytes_cons h
    simp only [h2tAux, h2trAux]
    have h1 : bsub ((x + p) % 256) p = x := by
      unfold bsub
      omega
    rw [h1, ih _ hxs]

theorem h2tAux_h2trAux (l : List Nat) : ∀ (p : Nat), Bytes l →
    h2tAux p (h2trAux p l) = l := by
  induction l with
  | nil => intro p _; rfl
  | cons x xs ih =>
    intro p h
    obtain ⟨hx, hxs⟩ := bytes_cons h
    simp only [h2tAux, h2trAux]
    have hfix : (bsub x p + p) % 256 = x := by
      unfold bsub
      omega
    rw [hfix, ih _ hxs]

theorem h2tr_h2t {l : List Nat} (h : Bytes l) : h2tr (h2t l) = l := by
  cases l with
  | nil => rfl
  | cons x xs =>
    simp only [h2t, h2tr]
    rw [h2trAux_h2tAux xs x (bytes_cons h).2]

theorem h2t_h2tr {l : List Nat} (h : Bytes l) : h2t (h2tr l) = l := by
  cases l with
  | nil => rfl
  | cons x xs =>
    simp only [h2t, h2tr]
    rw [h2tAux_h2trAux xs x (bytes_cons h).2]

theorem u2drAux_u2dAux (l : List Nat) : ∀ (p1 p2 p3 : Nat),
    u2drAux p1 p2 p3 (u2dAux p1 p2 p3 l) = l := by
  induction l with
  | nil => intro p1 p2 p3; rfl
  | cons x xs ih =>
    intro p1 p2 p3
    simp only [u2dAux, u2drAux, xor_xor_self]
    rw [ih _ _ _]

theorem u2dAux_u2drAux (l : List Nat) : ∀ (p1 p2 p3 : Nat),
    u2dAux p1 p2 p3 (u2drAux p1 p2 p3 l) = l := by
  induction l with
  | nil => intro p1 p2 p3; rfl
  | cons x xs ih =>
    intro p1 p2 p3
    simp only [u2dAux, u2drAux, xor_xor_self]
    rw [ih _ _ _]

theorem u2dr_u2d (l : List Nat) : u2dr (u2d l) = l := by
  by_cases hlen : l.length > 3
  · unfold u2d
    rw [if_pos hlen]
    rcases l with _ | ⟨a, _ | ⟨b, _ | ⟨c, rest⟩⟩⟩
    · rfl
    · rfl
    · rfl
    · unfold u2dr
      rw [if_pos (by simpa [u2dAux_length] using hlen)]
      simp only [u2drAux_u2dAux]
  · unfold u2d
    rw [if_neg hlen]
    unfold u2dr
    rw [if_neg hlen]

theorem u2d_u2dr (l : List Nat) : u2d (u2dr l) = l := by
  by_cases hlen : l.length > 3
  · unfold u2dr
    rw [if_pos hlen]
    rcases l with _ | ⟨a, _ | ⟨b, _ | ⟨c, rest⟩⟩⟩
    · rfl
    · rfl
    · rfl
    · unfold u2d
      rw [if_pos (by simpa [u2drAux_length] using hlen)]
      simp only [u2dAux_u2drAux]
  · unfold u2dr
    rw [if_neg hlen]
    unfold u2d
    rw [if_neg hlen]

theorem subIndexAux_addIndexAux (l : List Nat) : ∀ (i : Nat), Bytes l →
    subIndexAux i (addIndexAux i l) = l := by
  induction l with
  | nil => intro i _; rfl
  | cons x xs ih =>
    intro i h
    obtain ⟨hx, hxs⟩ := bytes_cons h
    simp only [addIndexAux, subIndexAux]
    have h1 : bsub ((x + i % 256) % 256) (i % 256) = x := by
      unfold bsub
      omega
    rw [h1, ih _ hxs]

theorem addIndexAux_subIndexAux (l : List Nat) : ∀ (i : Nat), Bytes l →
    addIndexAux i (subIndexAux i l) = l := by
  induction l with
  | nil => intro i _; rfl
  | cons x xs ih =>
    intro i h
    obtain ⟨hx, hxs⟩ := bytes_cons h
    simp only [addIndexAux, subIndexAux]
    have hfix : (bsub x (i % 256) + i % 256) % 256 = x := by
      unfold bsub
      omega
    rw [hfix, ih _ hxs]

theorem subIndex_addIndex {l : List Nat} (h : Bytes l) : subIndex (addIndex l) = l :=
  subIndexAux_addIndexAux l 0 h

theorem addIndex_subIndex {l : List Nat} (h : Bytes l) : addIndex (subIndex l) = l :=
  addIndexAux_subIndexAux l 0 h

theorem rotrPassAux_rotlPassAux : ∀ (bi : Nat) {l : List Nat}, Bytes l →
    rotrPassAux bi (rotlPassAux bi l) = l
  | _, [], _ => rfl
  | _, [_], _ => rfl
  | _, [_, _], _ => rfl
  | bi, a :: b :: c :: rest, h => by
    obtain ⟨ha, h2⟩ := bytes_cons h
    obtain ⟨hb, h3⟩ := bytes_cons h2
    obtain ⟨hc, h4⟩ := bytes_cons h3
    have hs : (bi * 2 + 1) % 8 = 1 ∨ (bi * 2 + 1) % 8 = 3 ∨
        (bi * 2 + 1) % 8 = 5 ∨ (bi * 2 + 1) % 8 = 7 := by omega
    have hblock := block_rotr_rotl hs a b c ha hb hc
    simp only [rotlPassAux, rotrPassAux]
    rw [hblock, rotrPassAux_rotlPassAux (bi + 1) h4]

theorem rotlPassAux_rotrPassAux : ∀ (bi : Nat) {l : List Nat}, Bytes l →
    rotlPassAux bi (rotrPassAux bi l) = l
  | _, [], _ => rfl
  | _, [_], _ => rfl
  | _, [_, _], _ => rfl
  | bi, a :: b :: c :: rest, h => by
    obtain ⟨ha, h2⟩ := bytes_cons h
    obtain ⟨hb, h3⟩ := bytes_cons h2
    obtain ⟨hc, h4⟩ := bytes_cons h3
    have hs : (bi * 2 + 1) % 8 = 1 ∨ (bi * 2 + 1) % 8 = 3 ∨
        (bi * 2 + 1) % 8 = 5 ∨ (bi * 2 + 1) % 8 = 7 := by omega
    have hblock := block_rotl_rotr hs a b c ha hb hc
    simp only [rotlPassAux, rotrPassAux]
    rw [hblock, rotlPassAux_rotrPassAux (bi + 1) h4]

theorem d2urAux_d2uAux {l : List Nat} (h : Bytes l) : d2urAux (d2uAux l) = l := by
  induction l with
  | nil => rfl
  | cons x xs ih =>
    obtain ⟨hx, hxs⟩ := bytes_cons h
    cases h5 : (d2uAux xs)[5]? with
    | none =>
      simp only [d2uAux, h5, d2urAux]
      rw [ih hxs]
    | some z =>
      simp only [d2uAux, h5, d2urAux]
      have h1 : bsub ((x + z) % 256) z = x := by
        unfold bsub
        omega
      rw [h1, ih hxs]

theorem d2uAux_d2urAux {l : List Nat} (h : Bytes l) : d2uAux (d2urAux l) = l := by
  induction l with
  | nil => rfl
  | cons x xs ih =>
    obtain ⟨hx, hxs⟩ := bytes_cons h
    cases h5 : xs[5]? with
    | none =>
      simp only [d2urAux, h5, d2uAux]
      rw [ih hxs, h5]
    | some z =>
      simp only [d2urAux, h5, d2uAux]
      rw [ih hxs, h5]
      have h1 : (bsub x z + z) % 256 = x := by
        unfold bsub
        omega
      simp [h1]

theorem d2ur_d2u {l : List Nat} (h : Bytes l) : d2ur (d2u l) = l := by
  by_cases hlen : l.length > 6
  · unfold d2u
    rw [if_pos hlen]
    unfold d2ur
    rw [if_pos (by simpa [d2uAux_length] using hlen)]
    exact d2urAux_d2uAux h
  · unfold d2u
    rw [if_neg hlen]
    unfold d2ur
    rw [if_neg hlen]

theorem d2u_d2ur {l : List Nat} (h : Bytes l) : d2u (d2ur l) = l := by
  by_cases hlen : l.length > 6
  · unfold d2ur
    rw [if_pos hlen]
    unfold d2u
    rw [if_pos (by simpa [d2urAux_length] using hlen)]
    exact d2uAux_d2urAux h
  · unfold d2ur
    rw [if_neg hlen]
    unfold d2u
    rw [if_neg hlen]

theorem t2hrGo_t2hGo : ∀ (l : List Nat), t2hrGo (t2hGo l) = l
  | [] => rfl
  | x :: xs => by
    have ih := t2hrGo_t2hGo xs
    cases heq : t2hGo xs with
    | nil =>
      have hxs : xs = [] := by
        have hl := t2hGo_length xs
        rw [heq] at hl
        simpa using (List.length_eq_zero.mp hl.symm)
      subst hxs
      simp [t2hGo, t2hrGo]
    | cons z zs =>
      rw [heq] at ih
      simp only [t2hGo, heq, t2hrGo, xor_xor_self]
      rw [ih]

theorem t2hGo_t2hrGo : ∀ (l : List Nat), t2hGo (t2hrGo l) = l
  | [] => rfl
  | [_] => rfl
  | x :: y :: xs => by
    have ih := t2hGo_t2hrGo (y :: xs)
    simp only [t2hrGo, t2hGo]
    rw [ih]
    simp [xor_xor_self]

theorem rev8_rev8 : ∀ x, x < 256 → rev8 (rev8 x) = x := by decide

theorem middlePassAux_involution : ∀ {l : List Nat}, Bytes l →
    middlePassAux (middlePassAux l) = l
  | [], _ => rfl
  | [_], _ => rfl
  | [_, _], _ => rfl
  | a :: b :: c :: rest, h => by
    obtain ⟨ha, h2⟩ := bytes_cons h
    obtain ⟨hb, h3⟩ := bytes_cons h2
    obtain ⟨hc, h4⟩ := bytes_cons h3
    simp only [middlePassAux]
    rw [rev8_rev8 b hb, middlePassAux_involution h4]

/-! ### Wrapper lemmas stated on the pass entry points used by `mixPasses` -/

theorem addIndex_bytes (l : List Nat) : Bytes (addIndex l) := addIndexAux_bytes 0 l

theorem subIndex_bytes (l : List Nat) : Bytes (subIndex l) := subIndexAux_bytes 0 l

theorem rotlPass_bytes {l : List Nat} (h : Bytes l) : Bytes (rotlPass l) :=
  rotlPassAux_bytes 0 h

theorem rotrPass_bytes {l : List Nat} (h : Bytes l) : Bytes (rotrPass l) :=
  rotrPassAux_bytes 0 h

theorem middlePass_bytes {l : List Nat} (h : Bytes l) : Bytes (middlePass l) :=
  middlePassAux_bytes h

theorem rotrPass_rotlPass {l : List Nat} (h : Bytes l) : rotrPass (rotlPass l) = l :=
  rotrPassAux_rotlPassAux 0 h

theorem rotlPass_rotrPass {l : List Nat} (h : Bytes l) : rotlPass (rotrPass l) = l :=
  rotlPassAux_rotrPassAux 0 h

theorem middlePass_involution {l : List Nat} (h : Bytes l) :
    middlePass (middlePass l) = l := middlePassAux_involution h

/-- The forward half applied after the reverse half is the identity. -/
theorem forward_reverse_id {y : List Nat} (hy : Bytes y) :
    t2hGo (d2u (rotlPass (addIndex (u2d (h2t
      (h2tr (u2dr (subIndex (rotrPass (d2ur (t2hrGo y))))))))))) = y := by
  have b1 : Bytes (t2hrGo y) := t2hrGo_bytes hy
  have b2 : Bytes (d2ur (t2hrGo y)) := d2ur_bytes b1
  have b3 : Bytes (rotrPass (d2ur (t2hrGo y))) := rotrPass_bytes b2
  have b4 : Bytes (subIndex (rotrPass (d2ur (t2hrGo y)))) := subIndex_bytes _
  have b5 : Bytes (u2dr (subIndex (rotrPass (d2ur (t2hrGo y))))) := u2dr_bytes b4
  rw [h2t_h2tr b5, u2d_u2dr, addIndex_subIndex b3, rotlPass_rotrPass b2,
    d2u_d2ur b1, t2hGo_t2hrGo]

/-- The reverse half applied after the forward half is the identity. -/
theorem reverse_forward_id {l : List Nat} (h : Bytes l) :
    h2tr (u2dr (subIndex (rotrPass (d2ur (t2hrGo
      (t2hGo (d2u (rotlPass (addIndex (u2d (h2t l))))))))))) = l := by
  have b1 : Bytes (h2t l) := h2t_bytes h
  have b2 : Bytes (u2d (h2t l)) := u2d_bytes b1
  have b3 : Bytes (addIndex (u2d (h2t l))) := addIndex_bytes _
  have b4 : Bytes (rotlPass (addIndex (u2d (h2t l)))) := rotlPass_bytes b3
  rw [t2hrGo_t2hGo, d2ur_d2u b4, rotrPass_rotlPass b3, subIndex_addIndex b2,
    u2dr_u2d, h2tr_h2t h]

/-- `Mixer::mix` undoes itself on any byte buffer: the thirteen passes form
an involution. -/
theorem mixPasses_involution {l : List Nat} (h : Bytes l) :
    mixPasses (mixPasses l) = l := by
  have b1 : Bytes (h2t l) := h2t_bytes h
  have b2 : Bytes (u2d (h2t l)) := u2d_bytes b1
  have b3 : Bytes (addIndex (u2d (h2t l))) := addIndex_bytes _
  have b4 : Bytes (rotlPass (addIndex (u2d (h2t l)))) := rotlPass_bytes b3
  have b5 : Bytes (d2u (rotlPass (addIndex (u2d (h2t l))))) := d2u_bytes b4
  have b6 : Bytes (t2hGo (d2u (rotlPass (addIndex (u2d (h2t l)))))) := t2hGo_bytes b5
  have b7 : Bytes (middlePass (t2hGo (d2u (rotlPass (addIndex (u2d (h2t l))))))) :=
    middlePass_bytes b6
  unfold mixPasses
  rw [forward_reverse_id b7, middlePass_involution b6]
  exact reverse_forward_id h

/-! ### padded_size in the no-overflow region -/

/-- In the region where `size_leb128 + input_size + 1` does not reach
`2 ^ 63`, `padded_size` computes the pure mathematical formula. -/
theorem padded_size_eq (n : Nat) (h : leb128_size n + n + 1 < 2 ^ 63) :
    padded_size n = leb128_size n + n + 1 +
      ((-((leb128_size n : Int) + n + 1)) % 3).toNat := by
  have hU : leb128_size n + n + 1 < U64 := by
    unfold U64
    omega
  have hmod3a : (0 : Int) ≤ (-((leb128_size n : Int) + n + 1)) % 3 :=
    Int.emod_nonneg _ (by norm_num)
  have hmod3b : (-((leb128_size n : Int) + n + 1)) % 3 < 3 :=
    Int.emod_lt_of_pos _ (by norm_num)
  simp only [padded_size]
  rw [Nat.mod_eq_of_lt hU, if_pos h, if_neg (by push_cast; omega)]
  have hcast : (-(((leb128_size n + n + 1 : Nat) : Int))) % 3 =
      (-((leb128_size n : Int) + n + 1)) % 3 := by
    push_cast
    ring_nf
  rw [hcast]
  rw [Nat.mod_eq_of_lt (by unfold U64; omega)]

theorem padded_size_mod3 (n : Nat) (h : leb128_size n + n + 1 < 2 ^ 63) :
    padded_size n % 3 = 0 := by
  rw [padded_size_eq n h]
  have h1 : (0 : Int) ≤ (-((leb128_size n : Int) + n + 1)) % 3 :=
    Int.emod_nonneg _ (by norm_num)
  have h2 : (-((leb128_size n : Int) + n + 1)) % 3 < 3 :=
    Int.emod_lt_of_pos _ (by norm_num)
  have h3 : ((leb128_size n : Int) + n + 1 + (-((leb128_size n : Int) + n + 1)) % 3) % 3 = 0 := by
    omega
  omega

theorem leb128_size_pos (n : Nat) (h : 1 ≤ n) : 1 ≤ leb128_size n := by
  unfold leb128_size
  rw [if_neg (by omega)]
  omega

theorem padded_size_ge (n : Nat) (h : leb128_size n + n + 1 < 2 ^ 63) :
    n + 2 ≤ padded_size n := by
  rw [padded_size_eq n h]
  have h1 : (0 : Int) ≤ (-((leb128_size n : Int) + n + 1)) % 3 :=
    Int.emod_nonneg _ (by norm_num)
  by_cases hn : n = 0
  · subst hn
    decide
  · have := leb128_size_pos n (by omega)
    omega

theorem padded_size_le (n : Nat) (h : leb128_size n + n + 1 < 2 ^ 63) :
    padded_size n ≤ leb128_size n + n + 3 := by
  rw [padded_size_eq n h]
  have h2 : (-((leb128_size n : Int) + n + 1)) % 3 < 3 :=
    Int.emod_lt_of_pos _ (by norm_num)
  have h1 : (0 : Int) ≤ (-((leb128_size n : Int) + n + 1)) % 3 :=
    Int.emod_nonneg _ (by norm_num)
  omega

/-! ### leb128 write/read lemmas -/

theorem ilog2_go_eq_log2 : ∀ (fuel n : Nat), n < 2 ^ fuel → ilog2_go fuel n = Nat.log2 n
  | 0, n, h => by
    have hn : n = 0 := by
      simp at h
      omega
    subst hn
    simp [ilog2_go, Nat.log2]
  | fuel + 1, n, h => by
    unfold ilog2_go
    by_cases h2 : 2 ≤ n
    · rw [if_pos h2]
      have hdiv : n / 2 < 2 ^ fuel := by
        rw [Nat.div_lt_iff_lt_mul (by norm_num)]
        have : (2 : Nat) ^ (fuel + 1) = 2 ^ fuel * 2 := by rw [pow_succ]
        omega
      rw [ilog2_go_eq_log2 fuel (n / 2) hdiv]
      conv_rhs => rw [Nat.log2]
      rw [if_pos h2]
    · rw [if_neg h2]
      conv_rhs => rw [Nat.log2]
      rw [if_neg h2]

theorem ilog2_eq_log2 (n : Nat) (h : n < 2 ^ 64) : ilog2 n = Nat.log2 n :=
  ilog2_go_eq_log2 64 n h

/-- In the usize domain, `leb128_size` is the `Nat.log2`-based formula. -/
theorem leb128_size_eq (n : Nat) (h : n < 2 ^ 64) :
    leb128_size n = if n = 0 then 0 else Nat.log2 n / 7 + 1 := by
  unfold leb128_size
  rw [ilog2_eq_log2 n h]

theorem leb128_write_go_irrel : ∀ (f1 f2 n : Nat), n < 128 ^ f1 → n < 128 ^ f2 →
    1 ≤ f1 → 1 ≤ f2 → leb128_write_go f1 n = leb128_write_go f2 n
  | 0, _, _, _, _, hf1, _ => by omega
  | _, 0, _, _, _, _, hf2 => by omega
  | f1 + 1, f2 + 1, n, h1, h2, _, _ => by
    unfold leb128_write_go
    by_cases hlt : n < 128
    · rw [if_pos hlt, if_pos hlt]
    · rw [if_neg hlt, if_neg hlt]
      have hf1p : 1 ≤ f1 := by
        by_contra hcon
        have hf1z : f1 = 0 := by omega
        subst hf1z
        simp at h1
        omega
      have hf2p : 1 ≤ f2 := by
        by_contra hcon
        have hf2z : f2 = 0 := by omega
        subst hf2z
        simp at h2
        omega
      have hd1 : n / 128 < 128 ^ f1 := by
        rw [Nat.div_lt_iff_lt_mul (by norm_num)]
        have : (128 : Nat) ^ (f1 + 1) = 128 ^ f1 * 128 := by rw [pow_succ]
        omega
      have hd2 : n / 128 < 128 ^ f2 := by
        rw [Nat.div_lt_iff_lt_mul (by norm_num)]
        have : (128 : Nat) ^ (f2 + 1) = 128 ^ f2 * 128 := by rw [pow_succ]
        omega
      rw [leb128_write_go_irrel f1 f2 (n / 128) hd1 hd2 hf1p hf2p]

/-- One unfolding of `leb128_write` on the usize domain. -/
theorem leb128_write_unfold (n : Nat) (h : n < 2 ^ 64) :
    leb128_write n = if n < 128 then [n]
      else (n % 128 + 128) :: leb128_write (n / 128) := by
  show leb128_write_go (9 + 1) n = _
  rw [leb128_write_go]
  by_cases hlt : n < 128
  · rw [if_pos hlt, if_pos hlt]
  · rw [if_neg hlt, if_neg hlt]
    unfold leb128_write
    have hd9 : n / 128 < 128 ^ 9 := by
      rw [Nat.div_lt_iff_lt_mul (by norm_num)]
      have hp : (2 : Nat) ^ 64 < 128 ^ 9 * 128 := by norm_num
      omega
    rw [leb128_write_go_irrel 9 10 (n / 128) hd9 (by
        have hp : (128 : Nat) ^ 9 ≤ 128 ^ 10 := Nat.pow_le_pow_right (by norm_num) (by omega)
        omega) (by omega) (by omega)]

theorem leb128_write_go_bytes : ∀ (fuel n : Nat), Bytes (leb128_write_go fuel n)
  | 0, _ => by intro x hx; simp [leb128_write_go] at hx
  | fuel + 1, n => by
    unfold leb128_write_go
    split
    · intro x hx
      rename_i hlt
      simp at hx
      omega
    · exact bytes_cons_intro (by omega) (leb128_write_go_bytes fuel (n / 128))

theorem leb128_write_bytes (n : Nat) : Bytes (leb128_write n) :=
  leb128_write_go_bytes 10 n

theorem leb128_write_ne_nil (n : Nat) : leb128_write n ≠ [] := by
  show leb128_write_go (9 + 1) n ≠ []
  rw [leb128_write_go]
  split <;> simp

theorem log2_unique (n k : Nat) (h1 : 2 ^ k ≤ n) (h2 : n < 2 ^ (k + 1)) :
    Nat.log2 n = k := by
  have hn : n ≠ 0 := by
    have : 0 < 2 ^ k := Nat.pos_pow_of_pos k (by norm_num)
    omega
  have ha : 2 ^ Nat.log2 n ≤ n := Nat.log2_self_le hn
  have hb : n < 2 ^ (Nat.log2 n + 1) := Nat.lt_log2_self
  have hc : Nat.log2 n < k + 1 := by
    by_contra hcon
    push_neg at hcon
    have : (2 : Nat) ^ (k + 1) ≤ 2 ^ Nat.log2 n :=
      Nat.pow_le_pow_right (by norm_num) hcon
    omega
  have hd : k < Nat.log2 n + 1 := by
    by_contra hcon
    push_neg at hcon
    have : (2 : Nat) ^ (Nat.log2 n + 1) ≤ 2 ^ k :=
      Nat.pow_le_pow_right (by norm_num) hcon
    omega
  omega

theorem log2_div128 (n : Nat) (h : 128 ≤ n) : Nat.log2 n = Nat.log2 (n / 128) + 7 := by
  have hm : 1 ≤ n / 128 := by
    have := Nat.div_le_div_right (c := 128) h
    simpa using this
  have ha : 2 ^ Nat.log2 (n / 128) ≤ n / 128 := Nat.log2_self_le (by omega)
  have hb : n / 128 < 2 ^ (Nat.log2 (n / 128) + 1) := Nat.lt_log2_self
  apply log2_unique
  · calc 2 ^ (Nat.log2 (n / 128) + 7)
        = 2 ^ Nat.log2 (n / 128) * 128 := by rw [pow_add]; norm_num
      _ ≤ n / 128 * 128 := Nat.mul_le_mul_right _ ha
      _ ≤ n := Nat.div_mul_le_self n 128
  · have hq : n < (n / 128 + 1) * 128 := by omega
    calc n < (n / 128 + 1) * 128 := hq
      _ ≤ 2 ^ (Nat.log2 (n / 128) + 1) * 128 := Nat.mul_le_mul_right _ (by omega)
      _ = 2 ^ (Nat.log2 (n / 128) + 7 + 1) := by rw [pow_add, pow_add]; ring

theorem leb128_write_length (n : Nat) (h : 1 ≤ n) (h64 : n < 2 ^ 64) :
    (leb128_write n).length = leb128_size n := by
  induction n using Nat.strong_induction_on with
  | _ n ih =>
    rw [leb128_write_unfold n h64]
    split
    · rename_i hlt
      have hlog : Nat.log2 n < 7 := by
        rw [Nat.log2_lt (by omega)]
        norm_num
        omega
      rw [leb128_size_eq n h64, if_neg (by omega)]
      simp
      omega
    · rename_i hge
      push_neg at hge
      have hm : 1 ≤ n / 128 := by omega
      have ihm := ih (n / 128) (Nat.div_lt_self (by omega) (by norm_num)) hm (by omega)
      have hlog := log2_div128 n hge
      simp only [List.length_cons, ihm]
      rw [leb128_size_eq n h64, leb128_size_eq (n / 128) (by omega),
        if_neg (by omega), if_neg (by omega), hlog]
      omega

theorem leb128_read_go_write (n : Nat) : ∀ (rest : List Nat) (shift acc consumed : Nat),
    n < 2 ^ (64 - shift) → shift ≤ 63 → shift % 7 = 0 → acc < 2 ^ shift →
    leb128_read_go (leb128_write n ++ rest) shift acc consumed =
      some (acc + n * 2 ^ shift, consumed + (leb128_write n).length) := by
  induction n using Nat.strong_induction_on with
  | _ n ih =>
    intro rest shift acc consumed hn hshift h7 hacc
    have h64 : n < 2 ^ 64 := by
      have hp : (2 : Nat) ^ (64 - shift) ≤ 2 ^ 64 :=
        Nat.pow_le_pow_right (by norm_num) (by omega)
      omega
    by_cases hlt : n < 128
    · rw [leb128_write_unfold n h64]
      rw [if_pos hlt]
      simp only [List.cons_append, List.nil_append, leb128_read_go]
      have hcap : ¬(shift = 63 ∧ n ≠ 0 ∧ n ≠ 1) := by
        rintro ⟨h63, hn0, hn1⟩
        subst h63
        norm_num at hn
        omega
      rw [if_neg hcap]
      have hmod : n % 128 = n := Nat.mod_eq_of_lt hlt
      have hlor : acc ||| ((n % 128) <<< shift) = acc + n * 2 ^ shift := by
        rw [hmod, Nat.shiftLeft_eq, Nat.lor_comm]
        rw [lor_eq_add _ _ shift (Nat.mul_mod_left n (2 ^ shift)) hacc]
        ring
      simp only [hlor, if_pos hlt, List.length_singleton]
    · rw [leb128_write_unfold n h64]
      rw [if_neg hlt]
      push_neg at hlt
      simp only [List.cons_append, List.append_eq, leb128_read_go]
      have hshift56 : shift ≤ 56 := by
        by_contra hcon
        push_neg at hcon
        have h63 : shift = 63 := by omega
        subst h63
        norm_num at hn
        omega
      have hcap : ¬(shift = 63 ∧ n % 128 + 128 ≠ 0 ∧ n % 128 + 128 ≠ 1) := by
        rintro ⟨h63, -, -⟩
        omega
      rw [if_neg hcap]
      have hmod : (n % 128 + 128) % 128 = n % 128 := by omega
      have hlor : acc ||| (((n % 128 + 128) % 128) <<< shift) =
          acc + n % 128 * 2 ^ shift := by
        rw [hmod, Nat.shiftLeft_eq, Nat.lor_comm]
        rw [lor_eq_add _ _ shift (Nat.mul_mod_left _ (2 ^ shift)) hacc]
        ring
      rw [if_neg (by omega)]
      simp only [hlor]
      have hdiv : n / 128 < 2 ^ (64 - (shift + 7)) := by
        have h1 : n < 2 ^ (64 - shift) := hn
        have h2 : (2 : Nat) ^ (64 - shift) = 2 ^ (64 - (shift + 7)) * 128 := by
          have : 64 - shift = (64 - (shift + 7)) + 7 := by omega
          rw [this, pow_add]
          norm_num
        rw [Nat.div_lt_iff_lt_mul (by norm_num)]
        omega
      have hacc2 : acc + n % 128 * 2 ^ shift < 2 ^ (shift + 7) := by
        have h1 : n % 128 ≤ 127 := by omega
        have h2 : n % 128 * 2 ^ shift ≤ 127 * 2 ^ shift :=
          Nat.mul_le_mul_right _ h1
        have h3 : (2 : Nat) ^ (shift + 7) = 2 ^ shift * 128 := by
          rw [pow_add]
          norm_num
        omega
      rw [ih (n / 128) (Nat.div_lt_self (by omega) (by norm_num)) rest (shift + 7)
        (acc + n % 128 * 2 ^ shift) (consumed + 1) hdiv (by omega) (by omega) hacc2]
      have harith : acc + n % 128 * 2 ^ shift + n / 128 * 2 ^ (shift + 7) =
          acc + n * 2 ^ shift := by
        have h3 : (2 : Nat) ^ (shift + 7) = 2 ^ shift * 128 := by
          rw [pow_add]
          norm_num
        rw [h3]
        have h4 : n % 128 * 2 ^ shift + n / 128 * (2 ^ shift * 128) =
            (n % 128 + 128 * (n / 128)) * 2 ^ shift := by ring
        rw [Nat.add_assoc, h4, Nat.mod_add_div]
      rw [harith]
      simp only [List.length_cons]
      have hc : consumed + 1 + (leb128_write (n / 128)).length =
          consumed + ((leb128_write (n / 128)).length + 1) := by omega
      rw [hc]

theorem leb128_read_write (n : Nat) (rest : List Nat) (hn : n < 2 ^ 64) :
    leb128_read (leb128_write n ++ rest) = some (n, (leb128_write n).length) := by
  unfold leb128_read
  rw [leb128_read_go_write n rest 0 0 0 (by simpa using hn) (by omega) (by omega)
    (by norm_num)]
  simp

/-! ### Builder normal form -/

theorem writeRange_exact (pre mid post vals : List Nat) (hlen : vals.length = mid.length) :
    writeRange (pre ++ mid ++ post) pre.length vals = pre ++ vals ++ post := by
  unfold writeRange
  have htake : List.take pre.length (pre ++ mid ++ post) = pre := by
    rw [List.append_assoc, List.take_left]
  have hdrop : List.drop (pre.length + vals.length) (pre ++ mid ++ post) = post := by
    have hpm : (pre ++ mid).length = pre.length + vals.length := by simp [hlen]
    exact List.drop_left' hpm
  rw [htake, hdrop, List.append_assoc]

/-- Checksum bytes recomputed over an exactly decomposed buffer. -/
theorem recalc_eq (L n : Nat) (w q r : List Nat) (hw : w.length = L) (hq : q.length = n) :
    recalculate_checksum ⟨L, n, w ++ q ++ r⟩ =
      ⟨L, n, w ++ q ++ (List.range r.length).map fun i => (crc8 q + i % 256) % 256⟩ := by
  unfold recalculate_checksum
  simp only
  have hpay : Padder.payload ⟨L, n, w ++ q ++ r⟩ = q := by
    unfold Padder.payload
    simp only
    rw [List.append_assoc, List.drop_left' hw, List.take_left' hq]
  rw [hpay]
  have hcnt : (w ++ q ++ r).length - n - L = r.length := by
    simp [hw, hq]
    omega
  rw [hcnt]
  have hwq : (w ++ q).length = L + n := by simp [hw, hq]
  have hrange : ((List.range r.length).map
      fun i => (crc8 q + i % 256) % 256).length = r.length := by simp
  have := writeRange_exact (w ++ q) r []
    ((List.range r.length).map fun i => (crc8 q + i % 256) % 256) (by simp)
  simp only [List.append_nil] at this
  rw [List.append_assoc] at this ⊢
  rw [← List.append_assoc] at this ⊢
  rw [hwq] at this
  rw [this]

/-- `writeRange` at position 0 overwrites a prefix. -/
theorem writeRange_zero (l vals : List Nat) :
    writeRange l 0 vals = vals ++ l.drop vals.length := by
  unfold writeRange
  simp

/-- Length facts about the leb128 prefix of a frame in the clean region. -/
theorem frame_prefix_bounds (n : Nat) (h : leb128_size n + n + 1 < 2 ^ 63) :
    (leb128_write n).length + n + 1 ≤ padded_size n ∧
      padded_size n ≤ (leb128_write n).length + n + 3 := by
  by_cases h0 : n = 0
  · subst h0
    have h1 : (leb128_write 0).length = 1 := by rfl
    have h2 : padded_size 0 = 3 := by decide
    omega
  · have hl := leb128_write_length n (by omega) (by omega)
    have hge := padded_size_eq n h
    have h1 : (0 : Int) ≤ (-((leb128_size n : Int) + n + 1)) % 3 :=
      Int.emod_nonneg _ (by norm_num)
    have h2 : (-((leb128_size n : Int) + n + 1)) % 3 < 3 :=
      Int.emod_lt_of_pos _ (by norm_num)
    omega

/-- Normal form of `new_zeroed`: leb128 prefix, zero payload, checksum of
the zero payload. -/
theorem new_zeroed_eq (n : Nat) (h : leb128_size n + n + 1 < 2 ^ 63) :
    new_zeroed n =
      ⟨(leb128_write n).length, n,
        leb128_write n ++ List.replicate n 0 ++
          (List.range (padded_size n - (leb128_write n).length - n)).map
            fun i => (crc8 (List.replicate n 0) + i % 256) % 256⟩ := by
  obtain ⟨hw1, hw2⟩ := frame_prefix_bounds n h
  unfold new_zeroed
  simp only
  rw [writeRange_zero]
  have hdrop : (List.replicate (padded_size n) (0 : Nat)).drop
      (leb128_write n).length =
      List.replicate (padded_size n - (leb128_write n).length) 0 := by
    simp
  rw [hdrop]
  have hsplit : List.replicate (padded_size n - (leb128_write n).length)
      (0 : Nat) = List.replicate n 0 ++
        List.replicate (padded_size n - (leb128_write n).length - n) 0 := by
    rw [List.append_replicate_replicate]
    congr 1
    omega
  rw [hsplit, ← List.append_assoc, recalc_eq _ _ _ _ _ rfl (by simp)]
  simp

/-- Normal form of `Padder.new`: the frame is the leb128 prefix, the payload,
and the incrementing checksum bytes, with the checksum count filling the
frame to `padded_size`. -/
theorem padder_new_eq (p : List Nat)
    (h : leb128_size p.length + p.length + 1 < 2 ^ 63) :
    Padder.new p = ⟨(leb128_write p.length).length, p.length,
      leb128_write p.length ++ p ++
        (List.range (padded_size p.length - p.length - (leb128_write p.length).length)).map
          fun i => (crc8 p + i % 256) % 256⟩ := by
  obtain ⟨hw1, hw2⟩ := frame_prefix_bounds p.length h
  unfold Padder.new
  simp only [new_zeroed_eq p.length h]
  rw [writeRange_exact _ _ _ _ (by simp)]
  rw [recalc_eq _ _ _ _ _ rfl rfl]
  have hlen : ((List.range (padded_size p.length - (leb128_write p.length).length
      - p.length)).map
        fun i => (crc8 (List.replicate p.length 0) + i % 256) % 256).length =
      padded_size p.length - p.length - (leb128_write p.length).length := by
    simp
    omega
  rw [hlen]

/-! ### Checksum loop lemmas (no-wrap region) -/

theorem wsub_eq (a b : Nat) (hb : b ≤ a) (ha : a < U64) : wsub a b = a - b := by
  unfold wsub U64
  have h : a < 2 ^ 64 := ha
  omega

theorem checkLoop_ok (content : List Nat) (pos crc : Nat) :
    ∀ (cnt i : Nat), pos + i + cnt ≤ content.length → content.length < 2 ^ 64 →
    (∀ k, k < cnt → content[pos + i + k]? = some ((crc + (i + k) % 256) % 256)) →
    checkLoop content pos crc i cnt = some none := by
  intro cnt
  induction cnt with
  | zero => intro i _ _ _; rfl
  | succ m ih =>
    intro i hbound hlen hall
    have hidx : (pos + i) % U64 = pos + i := by
      unfold U64
      omega
    have h0 := hall 0 (by omega)
    simp only [Nat.add_zero] at h0
    simp only [checkLoop, hidx, h0]
    rw [if_neg (by simp)]
    apply ih (i + 1) (by omega) hlen
    intro k hk
    have := hall (k + 1) (by omega)
    have e1 : pos + i + (k + 1) = pos + (i + 1) + k := by omega
    have e2 : i + (k + 1) = i + 1 + k := by omega
    rw [e1, e2] at this
    exact this

theorem checkLoop_mismatch (content : List Nat) (pos crc : Nat) :
    ∀ (j cnt i : Nat), j < cnt → pos + i + cnt ≤ content.length →
    content.length < 2 ^ 64 →
    (∀ k, k < j → content[pos + i + k]? = some ((crc + (i + k) % 256) % 256)) →
    (∀ b, content[pos + i + j]? = some b → b ≠ (crc + (i + j) % 256) % 256) →
    checkLoop content pos crc i cnt = some (some (pos + i + j)) := by
  intro j
  induction j with
  | zero =>
    intro cnt i hj hbound hlen _ hmis
    obtain ⟨m, rfl⟩ : ∃ m, cnt = m + 1 := ⟨cnt - 1, by omega⟩
    have hidx : (pos + i) % U64 = pos + i := by
      unfold U64
      omega
    have hlt : pos + i < content.length := by omega
    have hb : content[pos + i]? = some (content[pos + i]) :=
      List.getElem?_eq_getElem hlt
    have hne : content[pos + i] ≠ (crc + i % 256) % 256 := by
      have hb0 : content[pos + i + 0]? = some (content[pos + i]) := by
        simpa using hb
      have := hmis (content[pos + i]) hb0
      simpa using this
    simp only [checkLoop, hidx, hb]
    rw [if_pos hne]
    simp [hidx]
  | succ m ih =>
    intro cnt i hj hbound hlen hpre hmis
    obtain ⟨c, rfl⟩ : ∃ c, cnt = c + 1 := ⟨cnt - 1, by omega⟩
    have hidx : (pos + i) % U64 = pos + i := by
      unfold U64
      omega
    have h0 := hpre 0 (by omega)
    simp only [Nat.add_zero] at h0
    simp only [checkLoop, hidx, h0]
    rw [if_neg (by simp)]
    have := ih c (i + 1) (by omega) (by omega) hlen
      (fun k hk => by
        have := hpre (k + 1) (by omega)
        have e1 : pos + i + (k + 1) = pos + (i + 1) + k := by omega
        have e2 : i + (k + 1) = i + 1 + k := by omega
        rw [e1, e2] at this
        exact this)
      (fun b hbm => by
        have e1 : pos + (i + 1) + m = pos + i + (m + 1) := by omega
        have e2 : i + 1 + m = i + (m + 1) := by omega
        rw [e1] at hbm
        rw [e2]
        exact hmis b hbm)
    rw [this]
    have e3 : pos + (i + 1) + m = pos + i + (m + 1) := by omega
    rw [e3]

theorem checkLoop_ok_elim (content : List Nat) (pos crc : Nat) :
    ∀ (cnt i : Nat), pos + i + cnt ≤ content.length → content.length < 2 ^ 64 →
    checkLoop content pos crc i cnt = some none →
    ∀ k, k < cnt → content[pos + i + k]? = some ((crc + (i + k) % 256) % 256) := by
  intro cnt
  induction cnt with
  | zero => intro i _ _ _ k hk; omega
  | succ m ih =>
    intro i hbound hlen hrun k hk
    have hidx : (pos + i) % U64 = pos + i := by
      unfold U64
      omega
    have hlt : pos + i < content.length := by omega
    have hb : content[pos + i]? = some (content[pos + i]) :=
      List.getElem?_eq_getElem hlt
    simp only [checkLoop, hidx, hb] at hrun
    by_cases heq : content[pos + i] = (crc + i % 256) % 256
    · rw [if_neg (by simpa using heq)] at hrun
      cases k with
      | zero => simpa [heq] using hb
      | succ k2 =>
        have := ih (i + 1) (by omega) hlen hrun k2 (by omega)
        have e1 : pos + (i + 1) + k2 = pos + i + (k2 + 1) := by omega
        have e2 : i + 1 + k2 = i + (k2 + 1) := by omega
        rw [e1, e2] at this
        exact this
    · rw [if_pos (by simpa using heq)] at hrun
      simp at hrun

theorem checkLoop_exists_mismatch (content : List Nat) (pos crc : Nat) :
    ∀ (cnt i : Nat), pos + i + cnt ≤ content.length → content.length < 2 ^ 64 →
    (∃ k, k < cnt ∧ ∀ b, content[pos + i + k]? = some b →
      b ≠ (crc + (i + k) % 256) % 256) →
    ∃ off, checkLoop content pos crc i cnt = some (some off) := by
  intro cnt
  induction cnt with
  | zero =>
    intro i _ _ hex
    obtain ⟨k, hk, -⟩ := hex
    omega
  | succ m ih =>
    intro i hbound hlen hex
    have hidx : (pos + i) % U64 = pos + i := by
      unfold U64
      omega
    have hlt : pos + i < content.length := by omega
    have hb : content[pos + i]? = some (content[pos + i]) :=
      List.getElem?_eq_getElem hlt
    by_cases heq : content[pos + i] = (crc + i % 256) % 256
    · obtain ⟨k, hk, hkm⟩ := hex
      cases k with
      | zero =>
        exact absurd heq (by simpa using hkm _ (by simpa using hb))
      | succ k2 =>
        obtain ⟨off, hoff⟩ := ih (i + 1) (by omega) hlen ⟨k2, by omega, fun b hbm => by
          have e1 : pos + (i + 1) + k2 = pos + i + (k2 + 1) := by omega
          have e2 : i + 1 + k2 = i + (k2 + 1) := by omega
          rw [e1] at hbm
          rw [e2]
          exact hkm b hbm⟩
        refine ⟨off, ?_⟩
        simp only [checkLoop, hidx, hb]
        rw [if_neg (by simpa using heq)]
        exact hoff
    · refine ⟨pos + i, ?_⟩
      simp only [checkLoop, hidx, hb]
      rw [if_pos (by simpa using heq)]

/-! ### try_from_raw cascade -/

/-- After alignment, length-field, and padded-size checks pass without
`usize` underflow, `try_from_raw` is the checksum comparison loop. -/
theorem try_from_raw_cascade (content : List Nat) (n L : Nat)
    (halign : content.length % 3 = 0)
    (hread : leb128_read content = some (n, L))
    (hpad : padded_size n = content.length)
    (hnL : L + n ≤ content.length)
    (hlen : content.length < 2 ^ 64) :
    try_from_raw content =
      match checkLoop content (L + n) (crc8 ((content.drop L).take n)) 0
          (content.length - n - L) with
      | none => none
      | some (some off) => some (.error (.InvalidChecksum off))
      | some none => some (.ok ⟨L, n, content⟩) := by
  have hw1 : wsub content.length n = content.length - n :=
    wsub_eq _ _ (by omega) (by unfold U64; omega)
  have hw2 : wsub (content.length - n) L = content.length - n - L :=
    wsub_eq _ _ (by omega) (by unfold U64; omega)
  have hmod : (L + n) % U64 = L + n := by
    unfold U64
    omega
  have hLn : L + n - L = n := by omega
  have hslice : sliceGet content L ((L + n) % U64) = some ((content.drop L).take n) := by
    unfold sliceGet
    rw [hmod, if_pos ⟨by omega, by omega⟩, hLn]
  simp only [try_from_raw]
  rw [if_neg (by omega), hread]
  simp only
  rw [if_neg (by omega), hslice, hw1, hw2, hmod]

/-- `try_from_raw` accepts the frame built by `Padder.new` and records the
prefix width and payload size. -/
theorem try_from_raw_new (p : List Nat) (hbytes : Bytes p)
    (h : leb128_size p.length + p.length + 1 < 2 ^ 63) :
    try_from_raw (Padder.new p).content =
      some (.ok ⟨(leb128_write p.length).length, p.length, (Padder.new p).content⟩) := by
  obtain ⟨hw1, hw2⟩ := frame_prefix_bounds p.length h
  have hle := padded_size_le p.length h
  rw [padder_new_eq p h]
  simp only
  set n := p.length with hn
  set w := leb128_write n with hw
  set cnt := padded_size n - n - w.length with hcnt
  set cs := (List.range cnt).map (fun i => (crc8 p + i % 256) % 256) with hcs
  have hcslen : cs.length = cnt := by simp [hcs]
  have hflen : (w ++ p ++ cs).length = padded_size n := by
    simp [hcslen]
    omega
  have halign : (w ++ p ++ cs).length % 3 = 0 := by
    rw [hflen]
    exact padded_size_mod3 n h
  have hread : leb128_read (w ++ p ++ cs) = some (n, w.length) := by
    rw [List.append_assoc]
    exact leb128_read_write n (p ++ cs) (by omega)
  have hlen64 : (w ++ p ++ cs).length < 2 ^ 64 := by
    rw [hflen]
    omega
  rw [try_from_raw_cascade (w ++ p ++ cs) n w.length halign hread (by rw [hflen])
    (by simp [hcslen]) hlen64]
  have hdrop : ((w ++ p ++ cs).drop w.length).take n = p := by
    rw [List.append_assoc, List.drop_left, List.take_left' hn.symm]
  have hcntrw : (w ++ p ++ cs).length - n - w.length = cnt := by
    rw [hflen]
  rw [hdrop, hcntrw]
  have hbytesAt : ∀ k, k < cnt →
      (w ++ p ++ cs)[w.length + n + 0 + k]? = some ((crc8 p + (0 + k) % 256) % 256) := by
    intro k hk
    have hwp : (w ++ p).length = w.length + n := by simp
    have hidx : w.length + n + 0 + k = (w ++ p).length + k := by omega
    rw [hidx, List.append_assoc, ← List.append_assoc, List.getElem?_append_right (by omega)]
    have : (w ++ p).length + k - (w ++ p).length = k := by omega
    rw [this, hcs]
    simp [List.getElem?_range, hk]
  have hloop := checkLoop_ok (w ++ p ++ cs) (w.length + n) (crc8 p) cnt 0
    (by rw [hflen]; omega) hlen64 hbytesAt
  rw [hloop]

/-! ### Round trip -/

theorem bytes_append {a b : List Nat} (ha : Bytes a) (hb : Bytes b) : Bytes (a ++ b) := by
  intro x hx
  rcases List.mem_append.mp hx with h | h
  · exact ha x h
  · exact hb x h

theorem padder_new_content_length (p : List Nat)
    (h : leb128_size p.length + p.length + 1 < 2 ^ 63) :
    (Padder.new p).content.length = padded_size p.length := by
  obtain ⟨hw1, hw2⟩ := frame_prefix_bounds p.length h
  rw [padder_new_eq p h]
  simp
  omega

theorem padder_new_content_bytes (p : List Nat) (hb : Bytes p)
    (h : leb128_size p.length + p.length + 1 < 2 ^ 63) :
    Bytes (Padder.new p).content := by
  rw [padder_new_eq p h]
  refine bytes_append (bytes_append (leb128_write_bytes p.length) hb) ?_
  intro x hx
  simp at hx
  obtain ⟨i, -, hi⟩ := hx
  omega

theorem padder_new_payload (p : List Nat)
    (h : leb128_size p.length + p.length + 1 < 2 ^ 63) :
    (⟨(leb128_write p.length).length, p.length, (Padder.new p).content⟩ : Padder).payload
      = p := by
  rw [padder_new_eq p h]
  unfold Padder.payload
  simp only
  rw [List.append_assoc, List.drop_left, List.take_left' rfl]

/-- Round trip on nonempty payloads in the clean-length region. -/
theorem decode_encode (p : List Nat) (hne : p ≠ []) (hb : Bytes p)
    (hclean : leb128_size p.length + p.length + 1 < 2 ^ 63) :
    (encode p).bind decode = some (.ok p) := by
  have hn1 : 1 ≤ p.length := List.length_pos.mpr hne
  have hgelen := padded_size_ge p.length hclean
  have hflen := padder_new_content_length p hclean
  have hfbytes := padder_new_content_bytes p hb hclean
  have hfne : (Padder.new p).content ≠ [] := by
    intro hcon
    rw [hcon] at hflen
    simp at hflen
    omega
  unfold encode
  rw [if_neg hne]
  unfold mix
  rw [if_neg hfne]
  simp only [Option.some_bind]
  unfold decode do_decode
  have hmlen : (mixPasses (Padder.new p).content).length = padded_size p.length := by
    rw [mixPasses_length, hflen]
  rw [if_neg (by rw [hmlen]; have := padded_size_mod3 p.length hclean; omega)]
  unfold mix
  rw [if_neg (by
    intro hcon
    have := congrArg List.length hcon
    rw [hmlen] at this
    simp at this
    omega)]
  rw [mixPasses_involution hfbytes]
  dsimp only
  rw [try_from_raw_new p hb hclean]
  simp [Except.map, padder_new_payload p hclean]

/-! ### CRC-8 single-corruption sensitivity -/

theorem crc8_round_lt (c : Nat) : crc8_round c < 256 := by
  unfold crc8_round
  split
  · exact xor_lt_256 (Nat.mod_lt _ (by norm_num)) (by norm_num)
  · exact Nat.mod_lt _ (by norm_num)

theorem xor29_odd (x : Nat) (hx : x % 2 = 0) : (x ^^^ 29) % 2 = 1 := by
  have h1 : (x ^^^ 29) % 2 = (x + 29) % 2 := by norm_num
  omega

theorem crc8_round_inj : ∀ c1, c1 < 256 → ∀ c2, c2 < 256 →
    crc8_round c1 = crc8_round c2 → c1 = c2 := by
  intro c1 h1 c2 h2 h
  unfold crc8_round at h
  by_cases hc1 : 128 ≤ c1 <;> by_cases hc2 : 128 ≤ c2
  · rw [if_pos hc1, if_pos hc2] at h
    have hcan := congrArg (fun x => x ^^^ 29) h
    simp only [Nat.xor_assoc, Nat.xor_self, Nat.xor_zero] at hcan
    omega
  · rw [if_pos hc1, if_neg hc2] at h
    have ho := xor29_odd ((c1 * 2) % 256) (by omega)
    omega
  · rw [if_neg hc1, if_pos hc2] at h
    have ho := xor29_odd ((c2 * 2) % 256) (by omega)
    omega
  · rw [if_neg hc1, if_neg hc2] at h
    omega

theorem iterate_round_lt (k : Nat) : ∀ c, c < 256 → crc8_round^[k] c < 256 := by
  induction k with
  | zero => intro c hc; simpa using hc
  | succ m ih =>
    intro c hc
    rw [Function.iterate_succ_apply]
    exact ih _ (crc8_round_lt c)

theorem iterate_round_inj (k : Nat) : ∀ c1 c2, c1 < 256 → c2 < 256 →
    crc8_round^[k] c1 = crc8_round^[k] c2 → c1 = c2 := by
  induction k with
  | zero => intro c1 c2 _ _ h; simpa using h
  | succ m ih =>
    intro c1 c2 h1 h2 h
    rw [Function.iterate_succ_apply, Function.iterate_succ_apply] at h
    exact crc8_round_inj c1 h1 c2 h2 (ih _ _ (crc8_round_lt c1) (crc8_round_lt c2) h)

theorem xor_left_cancel {s b1 b2 : Nat} (h : s ^^^ b1 = s ^^^ b2) : b1 = b2 := by
  have := congrArg (fun x => s ^^^ x) h
  simpa [← Nat.xor_assoc, Nat.xor_self, Nat.zero_xor] using this

theorem crc8_byte_lt (c b : Nat) (hc : c < 256) (hb : b < 256) : crc8_byte c b < 256 := by
  unfold crc8_byte
  exact iterate_round_lt 8 _ (xor_lt_256 hc hb)

theorem crc8_byte_state_inj (b : Nat) (hb : b < 256) {c1 c2 : Nat}
    (h1 : c1 < 256) (h2 : c2 < 256) (h : crc8_byte c1 b = crc8_byte c2 b) : c1 = c2 := by
  unfold crc8_byte at h
  have := iterate_round_inj 8 _ _ (xor_lt_256 h1 hb) (xor_lt_256 h2 hb) h
  have h3 := congrArg (fun x => x ^^^ b) this
  simpa [Nat.xor_assoc, Nat.xor_self, Nat.xor_zero] using h3

theorem crc8_byte_byte_inj (c : Nat) (hc : c < 256) {b1 b2 : Nat}
    (hb1 : b1 < 256) (hb2 : b2 < 256) (h : b1 ≠ b2) : crc8_byte c b1 ≠ crc8_byte c b2 := by
  intro hcon
  unfold crc8_byte at hcon
  have := iterate_round_inj 8 _ _ (xor_lt_256 hc hb1) (xor_lt_256 hc hb2) hcon
  exact h (xor_left_cancel this)

theorem foldl_crc8_lt {l : List Nat} (hl : Bytes l) : ∀ c, c < 256 →
    List.foldl crc8_byte c l < 256 := by
  induction l with
  | nil => intro c hc; simpa using hc
  | cons x xs ih =>
    intro c hc
    obtain ⟨hx, hxs⟩ := bytes_cons hl
    simpa using ih hxs _ (crc8_byte_lt c x hc hx)

theorem foldl_crc8_inj {l : List Nat} (hl : Bytes l) : ∀ c1 c2, c1 < 256 → c2 < 256 →
    c1 ≠ c2 → List.foldl crc8_byte c1 l ≠ List.foldl crc8_byte c2 l := by
  induction l with
  | nil => intro c1 c2 _ _ h; simpa using h
  | cons x xs ih =>
    intro c1 c2 h1 h2 hne
    obtain ⟨hx, hxs⟩ := bytes_cons hl
    simp only [List.foldl_cons]
    exact ih hxs _ _ (crc8_byte_lt c1 x h1 hx) (crc8_byte_lt c2 x h2 hx)
      (fun hcon => hne (crc8_byte_state_inj x hx h1 h2 hcon))

/-- Changing a single payload byte always changes the CRC-8. -/
theorem crc8_flip_ne (pre suf : List Nat) (b b2 : Nat) (hpre : Bytes pre)
    (hsuf : Bytes suf) (hb : b < 256) (hb2 : b2 < 256) (hne : b ≠ b2) :
    crc8 (pre ++ b :: suf) ≠ crc8 (pre ++ b2 :: suf) := by
  unfold crc8
  intro hcon
  have h0 : List.foldl crc8_byte 0xFF (pre ++ b :: suf) =
      List.foldl crc8_byte 0xFF (pre ++ b2 :: suf) := by
    have := congrArg (fun x => x ^^^ 0xFF) hcon
    simpa [Nat.xor_assoc, Nat.xor_self, Nat.xor_zero] using this
  rw [List.foldl_append, List.foldl_append] at h0
  simp only [List.foldl_cons] at h0
  have hs : List.foldl crc8_byte 0xFF pre < 256 := foldl_crc8_lt hpre 0xFF (by norm_num)
  exact foldl_crc8_inj hsuf _ _
    (crc8_byte_lt _ b hs hb) (crc8_byte_lt _ b2 hs hb2)
    (crc8_byte_byte_inj _ hs hb hb2 hne) h0

theorem crc8_lt {l : List Nat} (hl : Bytes l) : crc8 l < 256 := by
  unfold crc8
  exact xor_lt_256 (foldl_crc8_lt hl 0xFF (by norm_num)) (by norm_num)

theorem bytes_take {l : List Nat} (hl : Bytes l) (k : Nat) : Bytes (l.take k) :=
  fun x hx => hl x (List.take_subset k l hx)

theorem bytes_drop {l : List Nat} (hl : Bytes l) (k : Nat) : Bytes (l.drop k) :=
  fun x hx => hl x (List.drop_subset k l hx)

/-- Corrupting any single byte of the payload or checksum region of a built
frame (to any different byte value) makes `try_from_raw` fail with
`InvalidChecksum`. -/
theorem try_from_raw_corrupt (p : List Nat) (hb : Bytes p)
    (hclean : leb128_size p.length + p.length + 1 < 2 ^ 63)
    (j b2 : Nat) (hj1 : (leb128_write p.length).length ≤ j)
    (hj2 : j < (Padder.new p).content.length)
    (hb2 : b2 < 256)
    (hne : b2 ≠ (Padder.new p).content.getD j 0) :
    ∃ off, try_from_raw ((Padder.new p).content.set j b2) =
      some (.error (.InvalidChecksum off)) := by
  obtain ⟨hw1, hw2⟩ := frame_prefix_bounds p.length hclean
  have hle := padded_size_le p.length hclean
  rw [padder_new_eq p hclean] at hj2 hne ⊢
  simp only at hj2 hne ⊢
  set n := p.length with hn
  set w := leb128_write n with hw
  set cnt := padded_size n - n - w.length with hcnt
  set cs := (List.range cnt).map (fun i => (crc8 p + i % 256) % 256) with hcs
  have hcslen : cs.length = cnt := by simp [hcs]
  have hcsbytes : Bytes cs := by
    intro x hx
    simp [hcs] at hx
    obtain ⟨i, -, hi⟩ := hx
    omega
  have hflen : (w ++ p ++ cs).length = padded_size n := by
    simp [hcslen]
    omega
  have hjlen : j < w.length + n + cnt := by
    simp [hcslen] at hj2
    omega
  set t := j - w.length with ht
  have hjt : j = w.length + t := by omega
  have hsetframe : (w ++ p ++ cs).set j b2 = w ++ (p ++ cs).set t b2 := by
    rw [List.append_assoc, List.set_append_right _ _ (by omega), hjt]
    simp
  have hcrcp : crc8 p < 256 := crc8_lt hb
  by_cases hreg : t < n
  · -- payload region
    set p2 := p.set t b2 with hp2
    have hp2len : p2.length = n := by simp [hp2, hn]
    have hp2bytes : Bytes p2 := by
      intro x hx
      rcases List.mem_or_eq_of_mem_set hx with h | h
      · exact hb x h
      · omega
    have hsplit2 : (p ++ cs).set t b2 = p2 ++ cs := by
      rw [List.set_append_left _ _ (by omega)]
    have hmodified : (w ++ p ++ cs).set j b2 = w ++ p2 ++ cs := by
      rw [hsetframe, hsplit2, List.append_assoc]
    have htlt : t < p.length := by omega
    have hpt : b2 ≠ p[t] := by
      intro hcon
      apply hne
      rw [hjt]
      have hgd : (w ++ p ++ cs).getD (w.length + t) 0 = p[t] := by
        rw [List.getD_eq_getElem?_getD, List.append_assoc,
          List.getElem?_append_right (by omega)]
        have htt : w.length + t - w.length = t := by omega
        rw [htt, List.getElem?_append_left (by omega)]
        rw [List.getElem?_eq_getElem (show t < p.length by omega)]
        rfl
      rw [hgd]
      exact hcon
    have hcrcne : crc8 p2 ≠ crc8 p := by
      have hdecomp : p = p.take t ++ p[t] :: p.drop (t + 1) := by
        conv_lhs => rw [← List.take_append_drop t p]
        congr 1
        exact List.drop_eq_getElem_cons (by omega)
      have hdecomp2 : p2 = p.take t ++ b2 :: p.drop (t + 1) :=
        List.set_eq_take_cons_drop b2 (by omega)
      rw [hdecomp2]
      conv_rhs => rw [hdecomp]
      exact crc8_flip_ne (p.take t) (p.drop (t + 1)) b2 (p[t])
        (bytes_take hb t) (bytes_drop hb (t + 1)) hb2
        (hb _ (List.getElem_mem _)) hpt
    rw [hmodified]
    have hmlen : (w ++ p2 ++ cs).length = padded_size n := by
      simp [hcslen, hp2len]
      omega
    rw [try_from_raw_cascade (w ++ p2 ++ cs) n w.length
      (by rw [hmlen]; exact padded_size_mod3 n hclean)
      (by rw [List.append_assoc]; exact leb128_read_write n (p2 ++ cs) (by omega))
      (by rw [hmlen])
      (by rw [hmlen]; omega)
      (by rw [hmlen]; omega)]
    have hdrop : ((w ++ p2 ++ cs).drop w.length).take n = p2 := by
      rw [List.append_assoc, List.drop_left, List.take_left' hp2len]
    have hcntrw : (w ++ p2 ++ cs).length - n - w.length = cnt := by
      rw [hmlen]
    rw [hdrop, hcntrw]
    obtain ⟨off, hoff⟩ := checkLoop_exists_mismatch (w ++ p2 ++ cs)
      (w.length + n) (crc8 p2) cnt 0 (by rw [hmlen]; omega) (by rw [hmlen]; omega)
      ⟨0, by omega, by
        intro b hbm
        have hwp2 : (w ++ p2).length = w.length + n := by simp [hp2len]
        have hidx0 : w.length + n + 0 + 0 = (w ++ p2).length + 0 := by omega
        rw [hidx0, List.append_assoc, ← List.append_assoc,
          List.getElem?_append_right (by omega)] at hbm
        have h00 : (w ++ p2).length + 0 - (w ++ p2).length = 0 := by omega
        rw [h00, hcs] at hbm
        simp [List.getElem?_range, show 0 < cnt by omega] at hbm
        subst hbm
        simp only [Nat.add_zero, Nat.zero_mod, Nat.add_zero]
        rw [Nat.mod_eq_of_lt hcrcp, Nat.mod_eq_of_lt (crc8_lt hp2bytes)]
        exact fun hcon => hcrcne hcon.symm⟩
    rw [hoff]
    exact ⟨off, rfl⟩
  · -- checksum region
    set u := t - n with hu
    have htu : t = n + u := by omega
    have hucnt : u < cnt := by omega
    set cs2 := cs.set u b2 with hcs2
    have hcs2len : cs2.length = cnt := by simp [hcs2, hcslen]
    have hsplit2 : (p ++ cs).set t b2 = p ++ cs2 := by
      rw [List.set_append_right _ _ (by omega), htu]
      simp [hn]
    have hmodified : (w ++ p ++ cs).set j b2 = w ++ p ++ cs2 := by
      rw [hsetframe, hsplit2, List.append_assoc]
    have hcsu : b2 ≠ (crc8 p + u % 256) % 256 := by
      intro hcon
      apply hne
      rw [hjt, htu]
      have hgd : (w ++ p ++ cs).getD (w.length + (n + u)) 0 =
          (crc8 p + u % 256) % 256 := by
        rw [List.getD_eq_getElem?_getD]
        have hwp : (w ++ p).length = w.length + n := by simp [hn]
        rw [List.getElem?_append_right (by omega)]
        have htt : w.length + (n + u) - (w ++ p).length = u := by omega
        rw [htt, hcs]
        simp [List.getElem?_range, hucnt]
      rw [hgd]
      exact hcon
    rw [hmodified]
    have hmlen : (w ++ p ++ cs2).length = padded_size n := by
      simp [hcs2len]
      omega
    rw [try_from_raw_cascade (w ++ p ++ cs2) n w.length
      (by rw [hmlen]; exact padded_size_mod3 n hclean)
      (by rw [List.append_assoc]; exact leb128_read_write n (p ++ cs2) (by omega))
      (by rw [hmlen])
      (by rw [hmlen]; omega)
      (by rw [hmlen]; omega)]
    have hdrop : ((w ++ p ++ cs2).drop w.length).take n = p := by
      rw [List.append_assoc, List.drop_left, List.take_left' hn.symm]
    have hcntrw : (w ++ p ++ cs2).length - n - w.length = cnt := by
      rw [hmlen]
    rw [hdrop, hcntrw]
    obtain ⟨off, hoff⟩ := checkLoop_exists_mismatch (w ++ p ++ cs2)
      (w.length + n) (crc8 p) cnt 0 (by rw [hmlen]; omega) (by rw [hmlen]; omega)
      ⟨u, hucnt, by
        intro b hbm
        have hwp : (w ++ p).length = w.length + n := by simp [hn]
        have hidxu : w.length + n + 0 + u = (w ++ p).length + u := by omega
        rw [hidxu, List.append_assoc, ← List.append_assoc,
          List.getElem?_append_right (by omega)] at hbm
        have huu : (w ++ p).length + u - (w ++ p).length = u := by omega
        rw [huu, hcs2] at hbm
        rw [List.getElem?_set_self (by rw [hcslen]; exact hucnt)] at hbm
        simp at hbm
        subst hbm
        simpa using hcsu⟩
    rw [hoff]
    exact ⟨off, rfl⟩

/-! ### Inversion of a successful parse -/

theorem leb128_read_go_bound : ∀ (l : List Nat) (shift acc consumed n L : Nat),
    shift ≤ 63 → shift % 7 = 0 → acc < 2 ^ 64 →
    leb128_read_go l shift acc consumed = some (n, L) → n < 2 ^ 64 := by
  intro l
  induction l with
  | nil => intro shift acc consumed n L _ _ _ h; simp [leb128_read_go] at h
  | cons b rest ih =>
    intro shift acc consumed n L hshift h7 hacc h
    simp only [leb128_read_go] at h
    by_cases hcap : shift = 63 ∧ b ≠ 0 ∧ b ≠ 1
    · rw [if_pos hcap] at h
      simp at h
    · rw [if_neg hcap] at h
      have hacc2 : acc ||| ((b % 128) <<< shift) < 2 ^ 64 := by
        apply Nat.or_lt_two_pow hacc
        rw [Nat.shiftLeft_eq]
        by_cases h63 : shift = 63
        · subst h63
          have hb01 : b = 0 ∨ b = 1 := by
            by_contra hcon
            push_neg at hcon
            exact hcap ⟨rfl, hcon.1, hcon.2⟩
          have : b % 128 ≤ 1 := by omega
          have h2 : (b % 128) * 2 ^ 63 ≤ 1 * 2 ^ 63 := Nat.mul_le_mul_right _ this
          omega
        · have hle : shift ≤ 56 := by omega
          have h1 : (2 : Nat) ^ shift ≤ 2 ^ 56 := Nat.pow_le_pow_right (by norm_num) hle
          have h2 : (b % 128) * 2 ^ shift ≤ 127 * 2 ^ 56 := by
            apply Nat.mul_le_mul (by omega) h1
          have h3 : (127 : Nat) * 2 ^ 56 < 2 ^ 64 := by norm_num
          omega
      by_cases hblt : b < 128
      · rw [if_pos hblt] at h
        simp at h
        omega
      · rw [if_neg hblt] at h
        have hne63 : shift ≠ 63 := by
          intro h63
          exact hcap ⟨h63, by omega, by omega⟩
        exact ih (shift + 7) _ (consumed + 1) n L (by omega) (by omega) hacc2 h

theorem leb128_read_bound {l : List Nat} {n L : Nat}
    (h : leb128_read l = some (n, L)) : n < 2 ^ 64 :=
  leb128_read_go_bound l 0 0 0 n L (by omega) (by omega) (by norm_num) h

/-- What a successful `try_from_raw` guarantees. -/
theorem try_from_raw_ok_inv (content : List Nat) (P : Padder)
    (hlen : content.length < 2 ^ 64)
    (h : try_from_raw content = some (.ok P)) :
    P.content = content ∧
    leb128_read content = some (P.size, P.leb128Size) ∧
    padded_size P.size = content.length ∧
    P.leb128Size + P.size ≤ content.length ∧
    checkLoop content (P.leb128Size + P.size)
      (crc8 ((content.drop P.leb128Size).take P.size)) 0
      (content.length - P.size - P.leb128Size) = some none := by
  unfold try_from_raw at h
  by_cases halign : content.length % 3 ≠ 0
  · rw [if_pos halign] at h
    simp at h
  · rw [if_neg halign] at h
    cases hread : leb128_read content with
    | none =>
      rw [hread] at h
      simp at h
    | some v =>
      obtain ⟨n, L⟩ := v
      rw [hread] at h
      simp only at h
      by_cases hpad : padded_size n ≠ content.length
      · rw [if_pos hpad] at h
        simp at h
      · rw [if_neg hpad] at h
        push_neg at hpad
        have hn64 : n < 2 ^ 64 := leb128_read_bound hread
        cases hslice : sliceGet content L ((L + n) % U64) with
        | none =>
          rw [hslice] at h
          simp at h
        | some payloadSlice =>
          rw [hslice] at h
          simp only at h
          have hcond : L ≤ (L + n) % U64 ∧ (L + n) % U64 ≤ content.length := by
            by_contra hcon
            unfold sliceGet at hslice
            rw [if_neg hcon] at hslice
            exact absurd hslice (by simp)
          have hLn : L + n < U64 := by
            unfold U64 at hcond ⊢
            omega
          have hmod : (L + n) % U64 = L + n := Nat.mod_eq_of_lt hLn
          rw [hmod] at hcond hslice h
          have hps : payloadSlice = (content.drop L).take n := by
            unfold sliceGet at hslice
            rw [if_pos ⟨by omega, by omega⟩] at hslice
            have hnn : L + n - L = n := by omega
            rw [hnn] at hslice
            exact (Option.some.inj hslice).symm
          have hws1 : wsub content.length n = content.length - n :=
            wsub_eq _ _ (by omega) (by unfold U64; omega)
          have hws2 : wsub (content.length - n) L = content.length - n - L :=
            wsub_eq _ _ (by omega) (by unfold U64; omega)
          rw [hps, hws1, hws2] at h
          cases hloop : checkLoop content (L + n) (crc8 ((content.drop L).take n)) 0
              (content.length - n - L) with
          | none =>
            rw [hloop] at h
            simp at h
          | some o =>
            cases o with
            | some off =>
              rw [hloop] at h
              simp at h
            | none =>
              rw [hloop] at h
              simp only [Option.some.injEq, Except.ok.injEq] at h
              subst h
              exact ⟨rfl, rfl, hpad, show L + n ≤ content.length by omega,
                hloop⟩

/-! ### The checksum invariant -/

theorem recalc_checksumOk (L n : Nat) (w q r : List Nat) (hw : w.length = L)
    (hq : q.length = n) : checksumOk (recalculate_checksum ⟨L, n, w ++ q ++ r⟩) := by
  rw [recalc_eq L n w q r hw hq]
  intro i hi
  simp only at hi ⊢
  set cs := (List.range r.length).map (fun i => (crc8 q + i % 256) % 256) with hcs
  have hcslen : cs.length = r.length := by simp [hcs]
  have hwq : (w ++ q).length = L + n := by simp [hw, hq]
  have hir : i < r.length := by
    simp only [List.length_append, hcslen] at hi
    omega
  have hpay : Padder.payload ⟨L, n, w ++ q ++ cs⟩ = q := by
    unfold Padder.payload
    simp only
    rw [List.append_assoc, List.drop_left' hw, List.take_left' hq]
  rw [hpay, List.getElem?_append_right (by omega)]
  have hsub : L + n + i - (w ++ q).length = i := by omega
  rw [hsub, hcs]
  simp [List.getElem?_range, hir]

/-- `Padder.new` establishes the checksum invariant. -/
theorem padder_new_checksumOk (p : List Nat)
    (h : leb128_size p.length + p.length + 1 < 2 ^ 63) :
    checksumOk (Padder.new p) := by
  unfold Padder.new
  have hz := new_zeroed_eq p.length h
  rw [hz]
  simp only
  rw [writeRange_exact _ _ _ _ (by simp)]
  exact recalc_checksumOk _ _ _ _ _ rfl rfl

/-- `new_zeroed` establishes the checksum invariant. -/
theorem new_zeroed_checksumOk (n : Nat) (h : leb128_size n + n + 1 < 2 ^ 63) :
    checksumOk (new_zeroed n) := by
  rw [new_zeroed_eq n h]
  have := recalc_checksumOk (leb128_write n).length n (leb128_write n)
    (List.replicate n 0)
    (List.replicate (padded_size n - (leb128_write n).length - n) 0) rfl (by simp)
  rw [recalc_eq _ _ _ _ _ rfl (by simp)] at this
  simpa using this

/-- A successful `try_from_raw` yields a padder satisfying the checksum
invariant. -/
theorem try_ok_checksumOk (content : List Nat) (P : Padder)
    (hlen : content.length < 2 ^ 64) (h : try_from_raw content = some (.ok P)) :
    checksumOk P := by
  obtain ⟨hc, hread, hpad, hnL, hloop⟩ := try_from_raw_ok_inv content P hlen h
  intro i hi
  rw [hc] at hi ⊢
  have := checkLoop_ok_elim content (P.leb128Size + P.size)
    (crc8 ((content.drop P.leb128Size).take P.size))
    (content.length - P.size - P.leb128Size) 0 (by omega) hlen hloop i (by omega)
  simpa [Padder.payload, hc] using this

/-- Releasing the payload-mutation guard re-establishes the checksum
invariant, whatever bytes were written to the payload region. -/
theorem guardScope_checksumOk (P : Padder) (q : List Nat)
    (hwf : P.leb128Size + P.size ≤ P.content.length) (hq : q.length = P.size) :
    checksumOk (guardScope P q) := by
  unfold guardScope
  have hdecomp : P.content = P.content.take P.leb128Size ++
      (P.content.drop P.leb128Size).take P.size ++
        P.content.drop (P.leb128Size + P.size) := by
    rw [List.append_assoc]
    have h1 : (P.content.drop P.leb128Size).take P.size ++
        P.content.drop (P.leb128Size + P.size) = P.content.drop P.leb128Size := by
      have h2 : P.content.drop (P.leb128Size + P.size) =
          (P.content.drop P.leb128Size).drop P.size := by
        rw [List.drop_drop]
      rw [h2, List.take_append_drop]
    rw [h1, List.take_append_drop]
  have htlen : (P.content.take P.leb128Size).length = P.leb128Size := by
    rw [List.length_take]
    omega
  have hmlen : ((P.content.drop P.leb128Size).take P.size).length = P.size := by
    rw [List.length_take, List.length_drop]
    omega
  have hwr : writeRange P.content P.leb128Size q =
      P.content.take P.leb128Size ++ q ++ P.content.drop (P.leb128Size + P.size) := by
    have base := writeRange_exact (P.content.take P.leb128Size)
      ((P.content.drop P.leb128Size).take P.size)
      (P.content.drop (P.leb128Size + P.size)) q (by rw [hmlen, hq])
    rw [htlen] at base
    rw [← hdecomp] at base
    exact base
  have hrec : ({ P with content := writeRange P.content P.leb128Size q } : Padder) =
      ⟨P.leb128Size, P.size, P.content.take P.leb128Size ++ q ++
        P.content.drop (P.leb128Size + P.size)⟩ := by
    rw [hwr]
  rw [hrec]
  exact recalc_checksumOk _ _ _ _ _ htlen hq

/-! ### Claim theorems -/

theorem leb128_size_le10 (n : Nat) (h : n < 2 ^ 64) : leb128_size n ≤ 10 := by
  unfold leb128_size
  split
  · omega
  · rename_i hn0
    rw [ilog2_eq_log2 n h]
    have hlog : Nat.log2 n < 64 := by
      rw [Nat.log2_lt hn0]
      exact h
    omega

theorem clean_of_len (p : List Nat) (h : p.length + 12 < 2 ^ 63) :
    leb128_size p.length + p.length + 1 < 2 ^ 63 := by
  have := leb128_size_le10 p.length (by omega)
  omega

/-- C1: the round trip fails on the empty payload: `encode []` is the empty
blob, but `decode []` panics inside the mixer, so `decode (encode []) = Ok []`
is false. -/
theorem c1_round_trip_counterexample :
    (encode []).bind decode = none ∧
      (none : Option (Except PaddingValidationError (List Nat))) ≠ some (.ok []) := by
  constructor
  · rfl
  · intro h
    cases h

/-- C1 (amended): for every nonempty payload `p` of byte values whose length
fits the no-overflow region of usize arithmetic (any payload constructible in
practice), `decode (encode p) = Ok p`. -/
theorem c1_round_trip (p : List Nat) (hne : p ≠ []) (hb : Bytes p)
    (hlen : p.length + 12 < 2 ^ 63) :
    (encode p).bind decode = some (.ok p) :=
  decode_encode p hne hb (clean_of_len p hlen)

theorem c1_round_trip_witness :
    ([97] : List Nat) ≠ [] ∧ Bytes [97] ∧ ([97] : List Nat).length + 12 < 2 ^ 63 ∧
      (encode [97]).bind decode = some (.ok [97]) :=
  ⟨by decide, by decide, by decide,
    c1_round_trip [97] (by decide) (by decide) (by decide)⟩

/-- C2: mixing twice does not restore the empty (length 0, 3-aligned)
buffer: `mix` panics on it (the `len - 1` of the two unguarded tail passes
underflows), so the involution fails at length 0. -/
theorem c2_mix_involution_counterexample :
    (mix []).bind mix = none ∧ (none : Option (List Nat)) ≠ some [] := by
  constructor
  · rfl
  · intro h
    cases h

/-- C2 (amended): for every nonempty 3-aligned byte buffer, applying
`Mixer::mix` twice restores the buffer exactly. -/
theorem c2_mix_involution (l : List Nat) (hne : l ≠ []) (halign : l.length % 3 = 0)
    (hb : Bytes l) : (mix l).bind mix = some l := by
  unfold mix
  rw [if_neg hne]
  simp only [Option.some_bind]
  rw [if_neg (by
    intro hcon
    have := congrArg List.length hcon
    rw [mixPasses_length] at this
    exact hne (List.length_eq_zero.mp this))]
  rw [mixPasses_involution hb]

theorem c2_mix_involution_witness :
    ([1, 2, 3] : List Nat) ≠ [] ∧ ([1, 2, 3] : List Nat).length % 3 = 0 ∧
      Bytes [1, 2, 3] ∧ (mix [1, 2, 3]).bind mix = some [1, 2, 3] :=
  ⟨by decide, by decide, by decide,
    c2_mix_involution [1, 2, 3] (by decide) (by decide) (by decide)⟩

/-- C5: `decode` is not total.  `try_from_raw` panics on the 6-byte buffer
`[0x84, 0x80, 0x80, 0x80, 0x80, 0x00]`: its redundant 6-byte leb128 prefix
decodes to payload size 4, `padded_size 4 = 6` passes the length check, then
`checksum_size = 6 - 4 - 6` underflows and the CRC payload slice
`content[6..10]` is out of bounds.  `decode` panics on that buffer's unmix
image, and also on the empty buffer (`len - 1` underflow in the mixer). -/
theorem c5_panic_evaluations :
    try_from_raw [132, 128, 128, 128, 128, 0] = none ∧
      decode (mixPasses [132, 128, 128, 128, 128, 0]) = none ∧
      decode [] = none := by
  refine ⟨by rfl, ?_, by rfl⟩
  have hb : Bytes [132, 128, 128, 128, 128, 0] := by decide
  have hlen : (mixPasses [132, 128, 128, 128, 128, 0]).length = 6 := by
    rw [mixPasses_length]
    rfl
  unfold decode do_decode
  rw [if_neg (by rw [hlen]; decide)]
  unfold mix
  rw [if_neg (by
    intro hcon
    have := congrArg List.length hcon
    rw [hlen] at this
    simp at this)]
  rw [mixPasses_involution hb]
  rfl

/-- C6: `encode []` is the empty blob, but `decode []` does not return
`Ok []`: it panics in the mixer. -/
theorem c6_empty_counterexample :
    decode [] = none ∧
      (none : Option (Except PaddingValidationError (List Nat))) ≠ some (.ok []) := by
  constructor
  · rfl
  · intro h
    cases h

/-- C6 (amended): `encode [] = []`, and `decode []` panics (it is the `none`
of the panic model, not `Ok []`). -/
theorem c6_empty : encode [] = some [] ∧ decode [] = none := by
  constructor
  · rfl
  · rfl

/-- C7: for every `n` in the no-overflow region of usize arithmetic,
`padded_size n = leb128_size n + n + C_spec n` with `C_spec n ∈ \x7b1, 2, 3\x7d`,
hence `padded_size n` is a multiple of 3, `padded_size n ≥ n + 2`, and
`padded_size 0 = 3`.  (The claim asserts this for every `n ≥ 0`; it fails
near `usize::MAX`, see the counterexample.) -/
theorem c7_padded_size_formula :
    (∀ n, leb128_size n + n + 1 < 2 ^ 63 →
      padded_size n = leb128_size n + n + C_spec n ∧
        1 ≤ C_spec n ∧ C_spec n ≤ 3 ∧
        padded_size n % 3 = 0 ∧ n + 2 ≤ padded_size n) ∧
      padded_size 0 = 3 := by
  constructor
  · intro n h
    have he := padded_size_eq n h
    have h1 : (0 : Int) ≤ (-((leb128_size n : Int) + n + 1)) % 3 :=
      Int.emod_nonneg _ (by norm_num)
    have h2 : (-((leb128_size n : Int) + n + 1)) % 3 < 3 :=
      Int.emod_lt_of_pos _ (by norm_num)
    refine ⟨?_, ?_, ?_, padded_size_mod3 n h, padded_size_ge n h⟩
    · unfold C_spec
      omega
    · unfold C_spec
      omega
    · unfold C_spec
      omega
  · rfl

theorem c7_padded_size_formula_witness :
    leb128_size 5 + 5 + 1 < 2 ^ 63 ∧
      (padded_size 5 = leb128_size 5 + 5 + C_spec 5 ∧
        1 ≤ C_spec 5 ∧ C_spec 5 ≤ 3 ∧
        padded_size 5 % 3 = 0 ∧ 5 + 2 ≤ padded_size 5) :=
  ⟨by decide, c7_padded_size_formula.1 5 (by decide)⟩

/-- C7: at `n = usize::MAX` the usize computation of `padded_size` wraps:
`leb128_size n + n + 1` overflows (and the isize cast is negative), giving
`padded_size (2^64 - 1) = 12`, which violates `padded_size n ≥ n + 2`, so the
formula claimed for every `n ≥ 0` fails. -/
theorem c7_padded_size_formula_counterexample :
    padded_size (2 ^ 64 - 1) = 12 ∧ ¬(2 ^ 64 - 1 + 2 ≤ padded_size (2 ^ 64 - 1)) := by
  constructor
  · decide
  · decide

/-- C10: fixed textual vectors.  `encode_to_base64 [0x61] = "PaEU"`, decoding
`"PaEU"` returns `[0x61]`, and `encode_to_base64 [0x62] = "pJxd"`.  The
base64 engine and the CRC-8/SAE-J1850 table live in external crates and are
modelled from the spec. -/
theorem c10_textual_vectors :
    encode_to_base64 [0x61] = some "PaEU" ∧
      decode_from_base64 "PaEU" = some (.ok (.ok [0x61])) ∧
      encode_to_base64 [0x62] = some "pJxd" := by
  refine ⟨?_, ?_, ?_⟩
  · rfl
  · rfl
  · rfl

/-- C4: flipping any single bit of any byte at or after the length prefix of
a built frame (payload region or checksum region, without recomputing the
checksum) makes `try_from_raw` return an error, and that error is
`InvalidChecksum` or `UnexpectedPaddedLength`, never `Ok`. -/
theorem c4_bit_flip_detected (p : List Nat) (j k : Nat) (hb : Bytes p)
    (hlen : p.length + 12 < 2 ^ 63) (hk : k < 8)
    (hj1 : (leb128_write p.length).length ≤ j)
    (hj2 : j < (Padder.new p).content.length) :
    ∃ e, try_from_raw ((Padder.new p).content.set j
        ((Padder.new p).content.getD j 0 ^^^ 2 ^ k)) = some (.error e) ∧
      ((∃ off, e = PaddingValidationError.InvalidChecksum off) ∨
        ∃ a b c, e = PaddingValidationError.UnexpectedPaddedLength a b c) := by
  have hclean := clean_of_len p hlen
  have hbc := padder_new_content_bytes p hb hclean
  have hold : (Padder.new p).content.getD j 0 < 256 := by
    have hmem : (Padder.new p).content.getD j 0 ∈ (Padder.new p).content := by
      rw [List.getD_eq_getElem?_getD, List.getElem?_eq_getElem hj2]
      exact List.getElem_mem _
    exact hbc _ hmem
  have hflip_lt : (Padder.new p).content.getD j 0 ^^^ 2 ^ k < 256 :=
    Nat.xor_lt_two_pow (n := 8) hold
      (Nat.pow_lt_pow_right (by norm_num) hk)
  have hflip_ne : (Padder.new p).content.getD j 0 ^^^ 2 ^ k ≠
      (Padder.new p).content.getD j 0 := by
    intro hcon
    have h2 : (Padder.new p).content.getD j 0 ^^^
        ((Padder.new p).content.getD j 0 ^^^ 2 ^ k) =
        (Padder.new p).content.getD j 0 ^^^ (Padder.new p).content.getD j 0 := by
      rw [hcon]
    rw [← Nat.xor_assoc, Nat.xor_self, Nat.zero_xor] at h2
    exact absurd h2 (Nat.pos_iff_ne_zero.mp (Nat.two_pow_pos k))
  obtain ⟨off, hoff⟩ := try_from_raw_corrupt p hb hclean j _ hj1 hj2 hflip_lt hflip_ne
  exact ⟨.InvalidChecksum off, hoff, .inl ⟨off, rfl⟩⟩

theorem c4_bit_flip_detected_witness :
    Bytes [97] ∧ ([97] : List Nat).length + 12 < 2 ^ 63 ∧ 0 < 8 ∧
      (leb128_write ([97] : List Nat).length).length ≤ 1 ∧
      1 < (Padder.new [97]).content.length ∧
      ∃ e, try_from_raw ((Padder.new [97]).content.set 1
          ((Padder.new [97]).content.getD 1 0 ^^^ 2 ^ 0)) = some (.error e) ∧
        ((∃ off, e = PaddingValidationError.InvalidChecksum off) ∨
          ∃ a b c, e = PaddingValidationError.UnexpectedPaddedLength a b c) :=
  ⟨by decide, by decide, by decide, by decide, by decide,
    c4_bit_flip_detected [97] 1 0 (by decide) (by decide) (by decide) (by decide)
      (by decide)⟩

/-- C9: the length prefix need not be minimal.  For every byte `x`, the
3-byte buffer `[0x81, 0x00, x]` is accepted by `try_from_raw` as the 1-byte
payload `[x]` although its prefix is a redundant 2-byte leb128 encoding of 1,
and the checksum-size subtraction `len - payload_size - leb128_size`
evaluates to 0, so no checksum byte is verified.  No built frame ever has
this shape. -/
theorem c9_redundant_prefix_accepted :
    (∀ x, x < 256 →
      try_from_raw [129, 0, x] = some (.ok ⟨2, 1, [129, 0, x]⟩) ∧
        Padder.payload ⟨2, 1, [129, 0, x]⟩ = [x] ∧
        wsub (wsub ([129, 0, x] : List Nat).length 1) 2 = 0) ∧
      ∀ p x, Bytes p → p.length + 12 < 2 ^ 63 →
        (Padder.new p).content ≠ [129, 0, x] := by
  constructor
  · decide
  · intro p x hb hlen hcon
    have hclean := clean_of_len p hlen
    have hpl := padder_new_content_length p hclean
    rw [hcon] at hpl
    have h3 : padded_size p.length = 3 := by
      simp at hpl
      omega
    have hge := padded_size_ge p.length hclean
    have hple : p.length ≤ 1 := by omega
    match p, hb, hcon, hple with
    | [], hb, hcon, hple =>
      have h0 : (Padder.new ([] : List Nat)).content[0]? = some 0 := by decide
      have h1 : (Padder.new ([] : List Nat)).content[0]? = [129, 0, x][0]? := by
        rw [hcon]
      rw [h0] at h1
      simp at h1
    | [a], hb, hcon, hple =>
      rw [padder_new_eq [a] (by show leb128_size 1 + 1 + 1 < 2 ^ 63; decide)] at hcon
      simp only [List.length_singleton] at hcon
      have hw : leb128_write 1 = [1] := by decide
      rw [hw] at hcon
      simp at hcon
    | a :: b :: rest, hb, hcon, hple =>
      simp at hple

/-- C8: the checksum invariant `content[leb128Size + size + i] =
(crc8 payload + i) % 256` holds for every `Padder` observable through the
public API: frames built by `Padder::new` and `Padder::new_zeroed`, frames
accepted by `try_from_raw`, and frames re-emerging from a `PadderMutGuard`
mutation scope (any payload overwrite followed by the `Drop`-run
`recalculate_checksum`). -/
theorem c8_checksum_invariant :
    (∀ p, leb128_size p.length + p.length + 1 < 2 ^ 63 →
      checksumOk (Padder.new p)) ∧
      (∀ n, leb128_size n + n + 1 < 2 ^ 63 → checksumOk (new_zeroed n)) ∧
      (∀ content P, content.length < 2 ^ 64 →
        try_from_raw content = some (.ok P) → checksumOk P) ∧
      ∀ P q, P.leb128Size + P.size ≤ P.content.length → q.length = P.size →
        checksumOk (guardScope P q) :=
  ⟨padder_new_checksumOk, new_zeroed_checksumOk, try_ok_checksumOk,
    guardScope_checksumOk⟩

theorem c8_checksum_invariant_witness :
    (leb128_size ([97] : List Nat).length + ([97] : List Nat).length + 1 < 2 ^ 63 ∧
      checksumOk (Padder.new [97])) ∧
      (leb128_size 2 + 2 + 1 < 2 ^ 63 ∧ checksumOk (new_zeroed 2)) ∧
      (([129, 0, 55] : List Nat).length < 2 ^ 64 ∧
        try_from_raw [129, 0, 55] = some (.ok ⟨2, 1, [129, 0, 55]⟩) ∧
        checksumOk (⟨2, 1, [129, 0, 55]⟩ : Padder)) ∧
      ((⟨1, 1, [1, 97, 75]⟩ : Padder).leb128Size + (⟨1, 1, [1, 97, 75]⟩ : Padder).size ≤
          (⟨1, 1, [1, 97, 75]⟩ : Padder).content.length ∧
        ([5] : List Nat).length = (⟨1, 1, [1, 97, 75]⟩ : Padder).size ∧
        checksumOk (guardScope ⟨1, 1, [1, 97, 75]⟩ [5])) :=
  ⟨⟨by decide, c8_checksum_invariant.1 [97] (by decide)⟩,
    ⟨by decide, c8_checksum_invariant.2.1 2 (by decide)⟩,
    ⟨by decide, by decide,
      c8_checksum_invariant.2.2.1 [129, 0, 55] ⟨2, 1, [129, 0, 55]⟩ (by decide)
        (by decide)⟩,
    ⟨by decide, by decide,
      c8_checksum_invariant.2.2.2 ⟨1, 1, [1, 97, 75]⟩ [5] (by decide) (by decide)⟩⟩

/-- C3 (amended): the validation cascade of `decode`/`try_from_raw` on an
arbitrary byte buffer.  Misaligned length fails with `NotAligned` before
anything else; aligned but `leb128_read` failing (prefix not terminating, or
the crate's shift-overflow on redundant long prefixes) gives
`BadLengthField`; a read prefix `(n, L)` with `padded_size n` different from
the length gives `UnexpectedPaddedLength n (padded_size n) len`; and when
additionally `L + n ≤ len` (otherwise the code panics, see the
counterexample), the checksum bytes are compared in increasing offset order:
the first mismatch gives `InvalidChecksum` at its absolute offset, and if
all match the parse succeeds with prefix size `L` and payload size `n`. -/
theorem c3_validation_cascade (content : List Nat) (hb : Bytes content)
    (hlen : content.length < 2 ^ 64) :
    (content.length % 3 ≠ 0 →
      decode content = some (.error (.NotAligned content.length)) ∧
        try_from_raw content = some (.error (.NotAligned content.length))) ∧
      (content.length % 3 = 0 → leb128_read content = none →
        try_from_raw content = some (.error .BadLengthField)) ∧
      (∀ n L, content.length % 3 = 0 → leb128_read content = some (n, L) →
        padded_size n ≠ content.length →
        try_from_raw content =
          some (.error (.UnexpectedPaddedLength n (padded_size n) content.length))) ∧
      ∀ n L, content.length % 3 = 0 → leb128_read content = some (n, L) →
        padded_size n = content.length → L + n ≤ content.length →
        (∀ j, j < content.length - n - L →
          (∀ k, k < j → content[L + n + k]? =
            some ((crc8 ((content.drop L).take n) + k % 256) % 256)) →
          (∀ b, content[L + n + j]? = some b →
            b ≠ (crc8 ((content.drop L).take n) + j % 256) % 256) →
          try_from_raw content = some (.error (.InvalidChecksum (L + n + j)))) ∧
          ((∀ k, k < content.length - n - L → content[L + n + k]? =
            some ((crc8 ((content.drop L).take n) + k % 256) % 256)) →
            try_from_raw content = some (.ok ⟨L, n, content⟩)) := by
  refine ⟨?_, ?_, ?_, ?_⟩
  · intro hmis
    constructor
    · unfold decode do_decode
      rw [if_pos hmis]
      rfl
    · simp only [try_from_raw]
      rw [if_pos hmis]
  · intro halign hread
    simp only [try_from_raw]
    rw [if_neg (by simp [halign]), hread]
  · intro n L halign hread hpadne
    simp only [try_from_raw]
    rw [if_neg (by simp [halign]), hread]
    dsimp only
    rw [if_pos hpadne]
  · intro n L halign hread hpad hnL
    have hcas := try_from_raw_cascade content n L halign hread hpad hnL hlen
    constructor
    · intro j hj hprev hmis
      have hm := checkLoop_mismatch content (L + n) (crc8 ((content.drop L).take n))
        j (content.length - n - L) 0 hj (by omega) hlen
        (fun k hk => by simpa using hprev k hk)
        (fun b hbj => by simpa using hmis b (by simpa using hbj))
      rw [hcas, hm]
      simp
    · intro hall
      have hok := checkLoop_ok content (L + n) (crc8 ((content.drop L).take n))
        (content.length - n - L) 0 (by omega) hlen
        (fun k hk => by simpa using hall k hk)
      rw [hcas, hok]

theorem c3_validation_cascade_witness :
    Bytes [1, 2] ∧ ([1, 2] : List Nat).length < 2 ^ 64 ∧
      ([1, 2] : List Nat).length % 3 ≠ 0 ∧
      (decode [1, 2] = some (.error (.NotAligned 2)) ∧
        try_from_raw [1, 2] = some (.error (.NotAligned 2))) :=
  ⟨by decide, by decide, by decide,
    (c3_validation_cascade [1, 2] (by decide) (by decide)).1 (by decide)⟩

/-- C3: two failures of the claimed cascade.  The buffer
`[0x84, 0x80, 0x80, 0x80, 0x80, 0x00]` is aligned, its (redundant) prefix
reads as `(4, 6)`, and `padded_size 4 = 6` matches the length, yet
`try_from_raw` panics (the checksum-size subtraction underflows and the
payload slice is out of bounds) instead of comparing checksum bytes.  The
buffer `[0x80 × 9, 0x02, 0x00, 0x00]` has a length prefix that terminates
within the buffer (its tenth byte, `0x02`, has the continuation bit clear),
yet parsing fails with `BadLengthField` (the leb128 crate overflows at
shift 63) instead of the claimed `UnexpectedPaddedLength`. -/
theorem c3_validation_cascade_counterexample :
    try_from_raw [132, 128, 128, 128, 128, 0] = none ∧
      leb128_read [132, 128, 128, 128, 128, 0] = some (4, 6) ∧
      padded_size 4 = 6 ∧
      ([132, 128, 128, 128, 128, 0] : List Nat).length % 3 = 0 ∧
      (([128, 128, 128, 128, 128, 128, 128, 128, 128, 2, 0, 0] : List Nat)[9]? =
        some 2 ∧ (2 : Nat) < 128) ∧
      try_from_raw [128, 128, 128, 128, 128, 128, 128, 128, 128, 2, 0, 0] =
        some (.error .BadLengthField) := by
  refine ⟨rfl, rfl, by decide, by decide, ⟨by decide, by decide⟩, rfl⟩

theorem c9_redundant_prefix_accepted_witness :
    ((42 : Nat) < 256 ∧
      (try_from_raw [129, 0, 42] = some (.ok ⟨2, 1, [129, 0, 42]⟩) ∧
        Padder.payload ⟨2, 1, [129, 0, 42]⟩ = [42] ∧
        wsub (wsub ([129, 0, 42] : List Nat).length 1) 2 = 0)) ∧
      (Bytes [7] ∧ ([7] : List Nat).length + 12 < 2 ^ 63 ∧
        (Padder.new [7]).content ≠ [129, 0, 42]) :=
  ⟨⟨by decide, c9_redundant_prefix_accepted.1 42 (by decide)⟩,
    ⟨by decide, by decide,
      c9_redundant_prefix_accepted.2 [7] 42 (by decide) (by decide)⟩⟩
